import Mathlib

/-!
Verification of the chain state machine of the paladeum repository
(`src/validation.cpp`, `pow.cpp`) against its natural-language specification.

The development shallow-embeds the relevant functions of the source:
machine integers become `Nat`/`Int` (with explicit `% 2 ^ w` where the source
wraps), the layered coin view becomes an explicit map from outpoints to
optional coins, and the chain controller's global state becomes a record
that the embedded operations transform.
-/

namespace Paladeum

/-! ### Amounts and the block subsidy (validation.cpp, `GetBlockSubsidy`) -/

/-- Modelled from the spec: the `COIN` unit from `amount.h` (not part of src/);
one coin is 100,000,000 base units. -/
def COIN : Int := 100000000

/-- Embeds `GetBlockSubsidy` (validation.cpp): height 1 pays the one-time
premine of 1,000,000,000 COIN; every other height pays 10 COIN. -/
def GetBlockSubsidy (nHeight : Int) : Int :=
  if nHeight = 1 then 1000000000 * COIN else 10 * COIN

/-- Outcome of a consensus check: either it passes or the block is rejected
with a `REJECT_INVALID` reason string. -/
inductive CheckResult where
  | ok : CheckResult
  | reject : String → CheckResult
deriving DecidableEq

/-- Embeds the coinbase/coinstake payout check of `ConnectBlock`
(validation.cpp lines 3070-3089): `blockReward = nFees + GetBlockSubsidy`;
a proof-of-work block is rejected with `bad-cb-amount` when the coinbase
value-out exceeds it, a proof-of-stake block with `bad-cs-amount` when the
coinstake reward (`nActualStakeReward = GetValueOut - GetValueIn` of the
coinstake, computed at line 2832) exceeds it. -/
def connectBlockRewardCheck (isProofOfWork : Bool) (nFees nHeight : Int)
    (coinbaseValueOut nActualStakeReward : Int) : CheckResult :=
  let blockReward := nFees + GetBlockSubsidy nHeight
  if isProofOfWork then
    if coinbaseValueOut > blockReward then CheckResult.reject "bad-cb-amount"
    else CheckResult.ok
  else
    if nActualStakeReward > blockReward then CheckResult.reject "bad-cs-amount"
    else CheckResult.ok

/-- C1: the block subsidy is exactly 1,000,000,000 COIN at height 1 and
exactly 10 COIN at every other height, and `ConnectBlock` rejects a
proof-of-work block whose coinbase pays more than fees plus subsidy with
`bad-cb-amount`, and a proof-of-stake block whose coinstake reward (the
payout beyond the staked input) exceeds fees plus subsidy with
`bad-cs-amount`; blocks within the bound pass the check. -/
theorem C1_subsidy_and_reward_cap (isPoW : Bool) (nFees nHeight cbOut csReward : Int) :
    GetBlockSubsidy 1 = 1000000000 * COIN ∧
    (nHeight ≠ 1 → GetBlockSubsidy nHeight = 10 * COIN) ∧
    (connectBlockRewardCheck isPoW nFees nHeight cbOut csReward = CheckResult.ok ↔
      (if isPoW then cbOut else csReward) ≤ nFees + GetBlockSubsidy nHeight) ∧
    (isPoW = true → cbOut > nFees + GetBlockSubsidy nHeight →
      connectBlockRewardCheck isPoW nFees nHeight cbOut csReward
        = CheckResult.reject "bad-cb-amount") ∧
    (isPoW = false → csReward > nFees + GetBlockSubsidy nHeight →
      connectBlockRewardCheck isPoW nFees nHeight cbOut csReward
        = CheckResult.reject "bad-cs-amount") := by
  refine ⟨rfl, fun h => by simp [GetBlockSubsidy, h], ?_, ?_, ?_⟩
  · cases isPoW <;>
      simp [connectBlockRewardCheck] <;>
      constructor <;> intro h <;> first | omega | (split at h <;> simp_all <;> omega)
  · intro hp hgt
    subst hp
    simp only [connectBlockRewardCheck, if_pos hgt]
    simp [hgt]
  · intro hp hgt
    subst hp
    simp only [connectBlockRewardCheck]
    simp [hgt]

/-- Closed witness for C1: at height 1 with zero fees, a coinbase paying the
full premine passes, and one paying a single extra unit is rejected with
`bad-cb-amount`; at height 2 a coinstake reward above 10 COIN is rejected
with `bad-cs-amount`. -/
theorem C1_subsidy_and_reward_cap_witness :
    connectBlockRewardCheck true 0 1 (1000000000 * COIN + 1) 0
      = CheckResult.reject "bad-cb-amount" ∧
    connectBlockRewardCheck false 0 2 0 (10 * COIN + 1)
      = CheckResult.reject "bad-cs-amount" ∧
    connectBlockRewardCheck true 0 1 (1000000000 * COIN) 0 = CheckResult.ok := by
  refine ⟨?_, ?_, ?_⟩
  · exact (C1_subsidy_and_reward_cap true 0 1 (1000000000 * COIN + 1) 0).2.2.2.1 rfl
      (by norm_num [GetBlockSubsidy, COIN])
  · exact (C1_subsidy_and_reward_cap false 0 2 0 (10 * COIN + 1)).2.2.2.2 rfl
      (by norm_num [GetBlockSubsidy, COIN])
  · exact ((C1_subsidy_and_reward_cap true 0 1 (1000000000 * COIN) 0).2.2.1).mpr
      (by norm_num [GetBlockSubsidy])

/-! ### Proof-of-work target check (pow.cpp, `CheckProofOfWork`) -/

/-- Modelled from the spec: `arith_uint256::SetCompact` (arith_uint256.cpp is
not part of src/). Decodes the compact ("nBits") target encoding used by
`CheckProofOfWork`: exponent byte `nSize = nCompact >> 24`, mantissa
`nWord = nCompact & 0x007fffff`; the 256-bit target is the mantissa shifted by
`8*(nSize-3)` bytes (wrapping modulo `2^256` as `arith_uint256` does); the
negative flag is bit 23 with a nonzero mantissa, and the overflow flag is set
when a nonzero mantissa would shift past 256 bits. -/
def setCompact (nCompact : Nat) : Nat × Bool × Bool :=
  let nSize := nCompact / 2 ^ 24
  let nWord := nCompact % 2 ^ 23
  let target :=
    if nSize ≤ 3 then nWord / 2 ^ (8 * (3 - nSize))
    else (nWord * 2 ^ (8 * (nSize - 3))) % 2 ^ 256
  let fNegative := nWord ≠ 0 ∧ (nCompact / 2 ^ 23) % 2 = 1
  let fOverflow := nWord ≠ 0 ∧
    (nSize > 34 ∨ (nWord > 0xff ∧ nSize > 33) ∨ (nWord > 0xffff ∧ nSize > 32))
  (target, decide fNegative, decide fOverflow)

/-- Embeds `CheckProofOfWork` (pow.cpp lines 202-219): decode `nBits`; fail if
negative, zero, overflowed, or above `params.powLimit`; fail if the block hash
exceeds the target; otherwise succeed. -/
def CheckProofOfWork (hash nBits powLimit : Nat) : Bool :=
  let d := setCompact nBits
  if d.2.1 || d.1 == 0 || d.2.2 || decide (d.1 > powLimit) then false
  else if hash > d.1 then false
  else true

/-! ### Coin view model (validation.cpp: `UpdateCoins`, `ApplyTxInUndo`,
`DisconnectBlock`, and the coin-handling steps of `ConnectBlock`)

Outpoints, coins and transactions are embedded structurally; scripts are
abstracted to an identifier plus the one predicate the coin lifecycle
consults (`IsUnspendable`). The layered coin view is modelled as a map from
outpoints to optional coins, `none` meaning spent/absent. -/

/-- A transaction outpoint (`COutPoint`): txid and output index. -/
structure OutPoint where
  hash : Nat
  n : Nat
deriving DecidableEq

/-- A transaction output (`CTxOut`): value, script (abstracted to an
identifier) and the `scriptPubKey.IsUnspendable()` flag. -/
structure TxOut where
  nValue : Int
  scriptPubKey : Nat
  unspendable : Bool
deriving DecidableEq

/-- A UTXO record (`Coin`): the output plus provenance metadata. -/
structure Coin where
  out : TxOut
  nHeight : Nat
  fCoinBase : Bool
  fCoinStake : Bool
  nTime : Nat
deriving DecidableEq

/-- The coin side of a view layer: outpoint to optional coin
(`none` = spent or absent). -/
def CoinsMap : Type := OutPoint → Option Coin

/-- Insert (or overwrite) a coin at an outpoint. -/
def insertCoin (m : CoinsMap) (o : OutPoint) (c : Coin) : CoinsMap :=
  fun o2 => if o2 = o then some c else m o2

/-- Remove the coin at an outpoint (mark spent). -/
def eraseCoin (m : CoinsMap) (o : OutPoint) : CoinsMap :=
  fun o2 => if o2 = o then none else m o2

/-- `CCoinsViewCache::HaveCoin`. -/
def haveCoin (m : CoinsMap) (o : OutPoint) : Bool :=
  (m o).isSome

/-- A transaction as the coin lifecycle sees it: txid, input prevouts,
outputs, coinbase/coinstake flags, timestamp. -/
structure Tx where
  txid : Nat
  vin : List OutPoint
  vout : List TxOut
  isCoinBase : Bool
  isCoinStake : Bool
  nTime : Nat
deriving DecidableEq

/-- Modelled from the spec: a token-state mutation produced by a
specially-shaped transaction output (the token sub-protocol's semantic rules
are out of scope); it assigns a new record to one token name. -/
structure TokenMutation where
  name : Nat
  newVal : Option Nat
deriving DecidableEq

/-- Modelled from the spec: the token state as a mapping from token name to
issuance/ownership record (abstracted to an identifier). -/
def TokenState : Type := Nat → Option Nat

/-- Modelled from the spec: applying a token mutation writes the new value
and records the previous value in the undo side-table entry. -/
def applyTokenMutation (s : TokenState) (mu : TokenMutation) :
    TokenState × (Nat × Option Nat) :=
  (fun n => if n = mu.name then mu.newVal else s n, (mu.name, s mu.name))

/-- Modelled from the spec: token mutations of a block are applied in order,
collecting the undo side-table in the same order. -/
def applyTokenMutations : TokenState → List TokenMutation → TokenState × List (Nat × Option Nat)
  | s, [] => (s, [])
  | s, mu :: rest =>
    let p := applyTokenMutation s mu
    let q := applyTokenMutations p.1 rest
    (q.1, p.2 :: q.2)

/-- Modelled from the spec: reverting one token-undo entry writes the
recorded previous value back. -/
def revertTokenUndo (s : TokenState) (u : Nat × Option Nat) : TokenState :=
  fun n => if n = u.1 then u.2 else s n

/-- Modelled from the spec: the undo side-table is replayed in reverse order
of application (`DisconnectBlock` walks transactions in reverse). -/
def revertTokenUndos : TokenState → List (Nat × Option Nat) → TokenState
  | s, [] => s
  | s, u :: us => revertTokenUndo (revertTokenUndos s us) u

/-- A block as the coin lifecycle sees it: header hash, predecessor hash,
transactions, and the token mutations its outputs encode. -/
structure Block where
  hash : Nat
  prevHash : Nat
  vtx : List Tx
  tokenMutations : List TokenMutation
deriving DecidableEq

/-- Spend the inputs of a (non-coinbase) transaction in order, recording the
previous coin of each into the undo vector, as the spend loop of
`UpdateCoins` does; fails (assertion `is_spent`) if an input is absent. -/
def spendInputs : CoinsMap → List OutPoint → Option (CoinsMap × List Coin)
  | m, [] => some (m, [])
  | m, o :: rest =>
    match m o with
    | none => none
    | some c =>
      (spendInputs (eraseCoin m o) rest).map (fun p => (p.1, c :: p.2))

/-- Modelled from the spec together with `DisconnectBlock`'s mirror loop:
`AddCoins` (coins.cpp is not part of src/) adds one coin per output at key
`(txid, k)` with metadata `(nHeight, fCoinBase, fCoinStake, nTime)`, skipping
unspendable scripts, with `possible_overwrite` allowed only for coinbase
transactions; overwriting otherwise is a failed invariant. The returned
flag records whether every added outpoint was previously absent. -/
def addOutputs (txid nHeight : Nat) (cb cs : Bool) (time : Nat) :
    CoinsMap → List TxOut → Nat → Option (CoinsMap × Bool)
  | m, [], _ => some (m, true)
  | m, out :: rest, k =>
    if out.unspendable then addOutputs txid nHeight cb cs time m rest (k + 1)
    else
      let key : OutPoint := ⟨txid, k⟩
      let fresh : Bool := (m key).isNone
      if !fresh && !cb then none
      else
        (addOutputs txid nHeight cb cs time
            (insertCoin m key ⟨out, nHeight, cb, cs, time⟩) rest (k + 1)).map
          (fun p => (p.1, fresh && p.2))

/-- Embeds `UpdateCoins` (validation.cpp lines 1524-1537): mark inputs spent
(recording undo) unless coinbase, then add the outputs. The extra Bool
records that no output overwrote an existing coin. -/
def UpdateCoins (tx : Tx) (m : CoinsMap) (nHeight : Nat) :
    Option (CoinsMap × List Coin × Bool) :=
  match (if tx.isCoinBase then some (m, []) else spendInputs m tx.vin) with
  | none => none
  | some p =>
    (addOutputs tx.txid nHeight tx.isCoinBase tx.isCoinStake tx.nTime
        p.1 tx.vout 0).map
      (fun q => (q.1, p.2, q.2))

/-- The per-transaction coin updates of `ConnectBlock`'s main loop for the
transactions after the coinbase (each pushes one `CTxUndo`). -/
def connectTxs (nHeight : Nat) : CoinsMap → List Tx →
    Option (CoinsMap × List (List Coin) × Bool)
  | m, [] => some (m, [], true)
  | m, tx :: rest =>
    match UpdateCoins tx m nHeight with
    | none => none
    | some p =>
      (connectTxs nHeight p.1 rest).map
        (fun q => (q.1, p.2.1 :: q.2.1, p.2.2 && q.2.2))

/-- The per-block undo record: one undo vector per non-coinbase transaction
(`CBlockUndo.vtxundo`) plus the token undo side-table. -/
structure BlockUndo where
  vtxundo : List (List Coin)
  tokenUndo : List (Nat × Option Nat)
deriving DecidableEq

/-- The combined per-block state the claim speaks about: Coin View, Token
State and the best-block pointer. -/
structure ChainView where
  coins : CoinsMap
  tokens : TokenState
  bestBlock : Nat

/-- The coin/token state transition of `ConnectBlock` (validation.cpp lines
2548-3140, coin and token effects only): assert the view's best block equals
the predecessor, process the coinbase (undo discarded, `undoDummy`), process
the remaining transactions collecting `vtxundo`, apply the block's token
mutations collecting the token undo side-table, and move the best-block
pointer to this block. The final Bool is true when no coin was overwritten. -/
def ConnectBlockState (v : ChainView) (b : Block) (nHeight : Nat) :
    Option (ChainView × BlockUndo × Bool) :=
  if v.bestBlock ≠ b.prevHash then none
  else
    match b.vtx with
    | [] => none
    | cb :: rest =>
      match UpdateCoins cb v.coins nHeight with
      | none => none
      | some p =>
        match connectTxs nHeight p.1 rest with
        | none => none
        | some q =>
          let t := applyTokenMutations v.tokens b.tokenMutations
          some ({ coins := q.1, tokens := t.1, bestBlock := b.hash },
                { vtxundo := q.2.1, tokenUndo := t.2 },
                p.2.2 && q.2.2)

/-- `MAX_OUTPUTS_PER_BLOCK` bound used by `AccessByTxid` (coins.cpp, not part
of src/; the exact value is irrelevant to the claims). -/
def MAX_OUTPUTS_PER_BLOCK : Nat := 50000

/-- Modelled from the spec: `AccessByTxid` (coins.cpp, not part of src/)
scans the outpoints of a txid and returns the first unspent coin. -/
def accessByTxid (m : CoinsMap) (txid : Nat) : Option Coin :=
  (List.range MAX_OUTPUTS_PER_BLOCK).findSome? (fun n => m ⟨txid, n⟩)

/-- Embeds `ApplyTxInUndo` (validation.cpp lines 1765-1811): restoring a
spent coin. `fClean` is false when the outpoint already holds a coin
(overwriting); missing undo metadata (`nHeight = 0`) is filled from an
alternate unspent output of the same transaction, or the disconnect fails.
The coin is then re-added (`AddCoin` skips unspendable scripts). Returns the
new map and the cleanliness flag (`DISCONNECT_OK`/`DISCONNECT_UNCLEAN`);
`none` is `DISCONNECT_FAILED`. -/
def ApplyTxInUndo (undo : Coin) (m : CoinsMap) (out : OutPoint) :
    Option (CoinsMap × Bool) :=
  let fClean := !(haveCoin m out)
  let undo2 : Option Coin :=
    if undo.nHeight = 0 then
      match accessByTxid m out.hash with
      | some alt =>
        some ⟨undo.out, alt.nHeight, alt.fCoinBase, alt.fCoinStake, alt.nTime⟩
      | none => none
    else some undo
  match undo2 with
  | none => none
  | some u =>
    some (if u.out.unspendable then m else insertCoin m out u, fClean)

/-- Apply a list of `(outpoint, undo-coin)` pairs in order via
`ApplyTxInUndo`, conjoining cleanliness (the restore loop of
`DisconnectBlock` walks inputs in reverse index order, so callers pass the
reversed pairing). -/
def applyUndos : CoinsMap → List (OutPoint × Coin) → Option (CoinsMap × Bool)
  | m, [] => some (m, true)
  | m, ou :: rest =>
    match ApplyTxInUndo ou.2 m ou.1 with
    | none => none
    | some p =>
      (applyUndos p.1 rest).map (fun q => (q.1, p.2 && q.2))

/-- The output-removal loop of `DisconnectBlock` (validation.cpp lines
1932-1965): spend each non-unspendable output of the transaction, checking
it is present and matches the block's output, the block height, and the
coinbase flag exactly; mismatches clear `fClean` but do not fail. -/
def disconnectOutputs (txid nHeight : Nat) (isCb : Bool) :
    CoinsMap → List TxOut → Nat → CoinsMap × Bool
  | m, [], _ => (m, true)
  | m, out :: rest, k =>
    if out.unspendable then disconnectOutputs txid nHeight isCb m rest (k + 1)
    else
      let key : OutPoint := ⟨txid, k⟩
      match m key with
      | none =>
        let p := disconnectOutputs txid nHeight isCb m rest (k + 1)
        (p.1, false)
      | some coin =>
        let matchOk : Bool :=
          decide (coin.out = out) && decide (coin.nHeight = nHeight) &&
            (coin.fCoinBase == isCb)
        let p := disconnectOutputs txid nHeight isCb (eraseCoin m key) rest (k + 1)
        (p.1, matchOk && p.2)

/-- The per-transaction step of `DisconnectBlock`: remove the outputs, then
(for non-coinbase positions, `i > 0`) check the undo vector length and
restore the inputs in reverse order via `ApplyTxInUndo`. -/
def disconnectTx (nHeight : Nat) (m : CoinsMap) (tx : Tx) (undo : List Coin)
    (restore : Bool) : Option (CoinsMap × Bool) :=
  let p := disconnectOutputs tx.txid nHeight tx.isCoinBase m tx.vout 0
  if restore then
    if undo.length ≠ tx.vin.length then none
    else
      (applyUndos p.1 ((tx.vin.zip undo).reverse)).map
        (fun q => (q.1, p.2 && q.2))
  else some (p.1, p.2)

/-- Disconnect the non-coinbase transactions (positions `1..`) in reverse
block order, pairing each with its undo vector. -/
def disconnectTxs (nHeight : Nat) : CoinsMap → List Tx → List (List Coin) →
    Option (CoinsMap × Bool)
  | m, [], [] => some (m, true)
  | m, tx :: txs, u :: us =>
    match disconnectTxs nHeight m txs us with
    | none => none
    | some p =>
      (disconnectTx nHeight p.1 tx u true).map (fun q => (q.1, p.2 && q.2))
  | _, _, _ => none

/-- The coin/token state transition of `DisconnectBlock` (validation.cpp
lines 1815-2415): fail if the undo record does not have exactly one entry
per non-coinbase transaction; undo transactions in reverse order (the
coinbase last, without input restoration); revert the token mutations from
the undo side-table; move the best-block pointer to the predecessor.
Returns the new state and `fClean`. -/
def DisconnectBlockState (v : ChainView) (b : Block) (u : BlockUndo)
    (nHeight : Nat) : Option (ChainView × Bool) :=
  match b.vtx with
  | [] => none
  | cb :: rest =>
    if u.vtxundo.length + 1 ≠ (cb :: rest).length then none
    else
      match disconnectTxs nHeight v.coins rest u.vtxundo with
      | none => none
      | some p =>
        match disconnectTx nHeight p.1 cb [] false with
        | none => none
        | some q =>
          some ({ coins := q.1,
                  tokens := revertTokenUndos v.tokens u.tokenUndo,
                  bestBlock := b.prevHash }, p.2 && q.2)

/-- The structural block shape `CheckBlock` guarantees before `ConnectBlock`
runs: the first transaction is the coinbase and no other one is. -/
def blockShape (b : Block) : Bool :=
  match b.vtx with
  | [] => false
  | cb :: rest => cb.isCoinBase && rest.all (fun t => !t.isCoinBase)

/-- Well-formedness of a reachable coin view: every stored coin was created
at a nonzero height (so its undo metadata is never "missing") and is
spendable (`AddCoin` never stores unspendable outputs). -/
def GoodCoins (m : CoinsMap) : Prop :=
  ∀ o c, m o = some c → c.nHeight ≠ 0 ∧ c.out.unspendable = false

/-- Decidable entry point for witnesses: connecting succeeded with no coin
overwritten. -/
def connectFresh (v : ChainView) (b : Block) (nHeight : Nat) : Bool :=
  match ConnectBlockState v b nHeight with
  | some r => r.2.2
  | none => false

/-! ### Map algebra for the coin view -/

theorem insertCoin_self (m : CoinsMap) (o : OutPoint) (c : Coin) :
    insertCoin m o c o = some c := by
  unfold insertCoin
  simp

theorem eraseCoin_self (m : CoinsMap) (o : OutPoint) : eraseCoin m o o = none := by
  unfold eraseCoin
  simp

theorem eraseCoin_of_none (m : CoinsMap) (o : OutPoint) (h : m o = none) :
    eraseCoin m o = m := by
  funext o2
  unfold eraseCoin
  by_cases h2 : o2 = o <;> simp [h2, h]

theorem eraseCoin_insertCoin (m : CoinsMap) (o : OutPoint) (c : Coin) :
    eraseCoin (insertCoin m o c) o = eraseCoin m o := by
  funext o2
  unfold eraseCoin insertCoin
  by_cases h2 : o2 = o <;> simp [h2]

theorem insertCoin_eraseCoin_cancel (m : CoinsMap) (o : OutPoint) (c : Coin)
    (h : m o = some c) : insertCoin (eraseCoin m o) o c = m := by
  funext o2
  unfold insertCoin eraseCoin
  by_cases h2 : o2 = o <;> simp [h2, h]

theorem insertCoin_insertCoin (m : CoinsMap) (o : OutPoint) (c1 c2 : Coin) :
    insertCoin (insertCoin m o c1) o c2 = insertCoin m o c2 := by
  funext o2
  unfold insertCoin
  by_cases h2 : o2 = o <;> simp [h2]

theorem insertCoin_eraseCoin_comm (m : CoinsMap) (o1 o2 : OutPoint) (c : Coin)
    (h : o1 ≠ o2) :
    insertCoin (eraseCoin m o2) o1 c = eraseCoin (insertCoin m o1 c) o2 := by
  funext o3
  unfold insertCoin eraseCoin
  by_cases h1 : o3 = o1 <;> by_cases h2 : o3 = o2 <;> simp_all

theorem goodCoins_erase {m : CoinsMap} (hg : GoodCoins m) (o : OutPoint) :
    GoodCoins (eraseCoin m o) := by
  intro o2 c h
  unfold eraseCoin at h
  by_cases h2 : o2 = o
  · simp [h2] at h
  · simp [h2] at h
    exact hg o2 c h

theorem goodCoins_insert {m : CoinsMap} (hg : GoodCoins m) (o : OutPoint)
    {c : Coin} (hh : c.nHeight ≠ 0) (hu : c.out.unspendable = false) :
    GoodCoins (insertCoin m o c) := by
  intro o2 c2 h
  unfold insertCoin at h
  by_cases h2 : o2 = o
  · simp [h2] at h
    exact h ▸ ⟨hh, hu⟩
  · simp [h2] at h
    exact hg o2 c2 h

/-! ### `ApplyTxInUndo` behaviour -/

theorem ApplyTxInUndo_fresh (u : Coin) (m : CoinsMap) (o : OutPoint)
    (hm : m o = none) (hh : u.nHeight ≠ 0) (hu : u.out.unspendable = false) :
    ApplyTxInUndo u m o = some (insertCoin m o u, true) := by
  unfold ApplyTxInUndo haveCoin
  simp [hm, hh, hu]

theorem ApplyTxInUndo_overwrite (u c : Coin) (m : CoinsMap) (o : OutPoint)
    (hm : m o = some c) (hh : u.nHeight ≠ 0) (hu : u.out.unspendable = false) :
    ApplyTxInUndo u m o = some (insertCoin m o u, false) := by
  unfold ApplyTxInUndo haveCoin
  simp [hm, hh, hu]

/-! ### Spending inputs and restoring them from undo -/

theorem spendInputs_length (os : List OutPoint) : ∀ (m m1 : CoinsMap) (us : List Coin),
    spendInputs m os = some (m1, us) → us.length = os.length := by
  induction os with
  | nil =>
    intro m m1 us h
    simp only [spendInputs, Option.some_inj, Prod.mk.injEq] at h
    rw [← h.2]
    rfl
  | cons o rest ih =>
    intro m m1 us h
    simp only [spendInputs] at h
    cases hm : m o with
    | none => rw [hm] at h; exact absurd h (by simp)
    | some c =>
      rw [hm] at h
      rw [Option.map_eq_some'] at h
      obtain ⟨p, hp, hfp⟩ := h
      rw [Prod.mk.injEq] at hfp
      rw [← hfp.2]
      simp [ih _ _ _ hp]

theorem spendInputs_good (os : List OutPoint) : ∀ (m m1 : CoinsMap) (us : List Coin),
    GoodCoins m → spendInputs m os = some (m1, us) → GoodCoins m1 := by
  induction os with
  | nil =>
    intro m m1 us hg h
    simp only [spendInputs, Option.some_inj, Prod.mk.injEq] at h
    rw [← h.1]
    exact hg
  | cons o rest ih =>
    intro m m1 us hg h
    simp only [spendInputs] at h
    cases hm : m o with
    | none => rw [hm] at h; exact absurd h (by simp)
    | some c =>
      rw [hm] at h
      rw [Option.map_eq_some'] at h
      obtain ⟨p, hp, hfp⟩ := h
      rw [Prod.mk.injEq] at hfp
      rw [← hfp.1]
      exact ih _ _ _ (goodCoins_erase hg o) hp

theorem applyUndos_append (l1 l2 : List (OutPoint × Coin)) : ∀ (m : CoinsMap),
    applyUndos m (l1 ++ l2) =
      match applyUndos m l1 with
      | none => none
      | some p => (applyUndos p.1 l2).map (fun q => (q.1, p.2 && q.2)) := by
  induction l1 with
  | nil =>
    intro m
    simp only [List.nil_append, applyUndos]
    cases applyUndos m l2 <;> simp
  | cons a l ih =>
    intro m
    rcases h : ApplyTxInUndo a.2 m a.1 with _ | p
    · simp [applyUndos, h]
    · rcases hq : applyUndos p.1 l with _ | q
      · simp [applyUndos, h, ih p.1, hq]
      · rcases hr : applyUndos q.1 l2 with _ | r
        · simp [applyUndos, h, ih p.1, hq, hr]
        · simp [applyUndos, h, ih p.1, hq, hr, Bool.and_assoc]

theorem spendInputs_applyUndos (os : List OutPoint) :
    ∀ (m m1 : CoinsMap) (us : List Coin), GoodCoins m →
    spendInputs m os = some (m1, us) →
    applyUndos m1 ((os.zip us).reverse) = some (m, true) := by
  induction os with
  | nil =>
    intro m m1 us hg h
    simp only [spendInputs, Option.some_inj, Prod.mk.injEq] at h
    rw [← h.1, ← h.2]
    simp [applyUndos]
  | cons o rest ih =>
    intro m m1 us hg h
    simp only [spendInputs] at h
    cases hm : m o with
    | none => rw [hm] at h; exact absurd h (by simp)
    | some c =>
      rw [hm] at h
      rw [Option.map_eq_some'] at h
      obtain ⟨p, hp, hfp⟩ := h
      rw [Prod.mk.injEq] at hfp
      obtain ⟨h1, h2⟩ := hfp
      subst h1
      rw [← h2]
      have ihz := ih (eraseCoin m o) p.1 p.2 (goodCoins_erase hg o) hp
      rw [List.zip_cons_cons, List.reverse_cons, applyUndos_append, ihz]
      have hgc := hg o c hm
      have happ := ApplyTxInUndo_fresh c (eraseCoin m o) o (eraseCoin_self m o) hgc.1 hgc.2
      simp [applyUndos, happ, insertCoin_eraseCoin_cancel m o c hm]

/-! ### Adding outputs and removing them on disconnect -/

theorem addOutputs_untouched (txid h : Nat) (cb cs : Bool) (t : Nat)
    (vo : List TxOut) : ∀ (m m2 : CoinsMap) (k : Nat) (f : Bool),
    addOutputs txid h cb cs t m vo k = some (m2, f) →
    ∀ key : OutPoint, key.hash ≠ txid ∨ key.n < k → m2 key = m key := by
  induction vo with
  | nil =>
    intro m m2 k f hadd key _
    simp only [addOutputs, Option.some_inj, Prod.mk.injEq] at hadd
    rw [← hadd.1]
  | cons out rest ih =>
    intro m m2 k f hadd key hkey
    simp only [addOutputs] at hadd
    by_cases hun : out.unspendable
    · rw [if_pos hun] at hadd
      have := ih m m2 (k + 1) f hadd key ?_
      · exact this
      · rcases hkey with hk | hk
        · exact Or.inl hk
        · exact Or.inr (Nat.lt_succ_of_lt hk)
    · rw [if_neg hun] at hadd
      by_cases hguard : (!(m ⟨txid, k⟩).isNone && !cb) = true
      · rw [if_pos hguard] at hadd
        exact absurd hadd (by simp)
      · rw [if_neg hguard] at hadd
        rw [Option.map_eq_some'] at hadd
        obtain ⟨p, hp, hfp⟩ := hadd
        rw [Prod.mk.injEq] at hfp
        have hne : key ≠ (⟨txid, k⟩ : OutPoint) := by
          intro hcontra
          rcases hkey with hk | hk
          · exact hk (by rw [hcontra])
          · rw [hcontra] at hk
            exact absurd hk (by simp)
        have step := ih _ p.1 (k + 1) p.2 hp key ?_
        · rw [← hfp.1, step]
          unfold insertCoin
          simp [hne]
        · rcases hkey with hk | hk
          · exact Or.inl hk
          · exact Or.inr (Nat.lt_succ_of_lt hk)

theorem addOutputs_good (txid h : Nat) (cb cs : Bool) (t : Nat) (hh : h ≠ 0)
    (vo : List TxOut) : ∀ (m m2 : CoinsMap) (k : Nat) (f : Bool),
    GoodCoins m → addOutputs txid h cb cs t m vo k = some (m2, f) →
    GoodCoins m2 := by
  induction vo with
  | nil =>
    intro m m2 k f hg hadd
    simp only [addOutputs, Option.some_inj, Prod.mk.injEq] at hadd
    rw [← hadd.1]
    exact hg
  | cons out rest ih =>
    intro m m2 k f hg hadd
    simp only [addOutputs] at hadd
    by_cases hun : out.unspendable
    · rw [if_pos hun] at hadd
      exact ih m m2 (k + 1) f hg hadd
    · rw [if_neg hun] at hadd
      by_cases hguard : (!(m ⟨txid, k⟩).isNone && !cb) = true
      · rw [if_pos hguard] at hadd
        exact absurd hadd (by simp)
      · rw [if_neg hguard] at hadd
        rw [Option.map_eq_some'] at hadd
        obtain ⟨p, hp, hfp⟩ := hadd
        rw [Prod.mk.injEq] at hfp
        rw [← hfp.1]
        refine ih _ p.1 (k + 1) p.2 ?_ hp
        exact goodCoins_insert hg _ hh (by simpa using hun)

theorem addOutputs_erase (txid h : Nat) (cb cs : Bool) (t : Nat)
    (vo : List TxOut) : ∀ (m : CoinsMap) (k : Nat) (key : OutPoint),
    key.hash ≠ txid ∨ key.n < k →
    addOutputs txid h cb cs t (eraseCoin m key) vo k =
      (addOutputs txid h cb cs t m vo k).map (fun p => (eraseCoin p.1 key, p.2)) := by
  induction vo with
  | nil =>
    intro m k key _
    simp [addOutputs]
  | cons out rest ih =>
    intro m k key hkey
    have hkey1 : key.hash ≠ txid ∨ key.n < k + 1 := by
      rcases hkey with hk | hk
      · exact Or.inl hk
      · exact Or.inr (Nat.lt_succ_of_lt hk)
    have hne : (⟨txid, k⟩ : OutPoint) ≠ key := by
      intro hcontra
      rcases hkey with hk | hk
      · exact hk (by rw [← hcontra])
      · rw [← hcontra] at hk
        exact absurd hk (by simp)
    simp only [addOutputs]
    by_cases hun : out.unspendable
    · rw [if_pos hun, if_pos hun]
      exact ih m (k + 1) key hkey1
    · rw [if_neg hun, if_neg hun]
      have hsame : (eraseCoin m key) ⟨txid, k⟩ = m ⟨txid, k⟩ := by
        unfold eraseCoin
        simp [hne]
      rw [hsame]
      by_cases hguard : (!(m ⟨txid, k⟩).isNone && !cb) = true
      · rw [if_pos hguard, if_pos hguard]
        simp
      · rw [if_neg hguard, if_neg hguard]
        rw [insertCoin_eraseCoin_comm _ _ _ _ hne]
        rw [ih (insertCoin m ⟨txid, k⟩ ⟨out, h, cb, cs, t⟩) (k + 1) key hkey1]
        cases addOutputs txid h cb cs t (insertCoin m ⟨txid, k⟩ ⟨out, h, cb, cs, t⟩) rest (k + 1) <;> simp

theorem addOutputs_disconnect (txid h : Nat) (cb cs : Bool) (t : Nat)
    (vo : List TxOut) : ∀ (m m2 : CoinsMap) (k : Nat),
    addOutputs txid h cb cs t m vo k = some (m2, true) →
    disconnectOutputs txid h cb m2 vo k = (m, true) := by
  induction vo with
  | nil =>
    intro m m2 k hadd
    simp only [addOutputs, Option.some_inj, Prod.mk.injEq] at hadd
    rw [← hadd.1]
    simp [disconnectOutputs]
  | cons out rest ih =>
    intro m m2 k hadd
    simp only [addOutputs] at hadd
    by_cases hun : out.unspendable
    · rw [if_pos hun] at hadd
      simp only [disconnectOutputs, if_pos hun]
      exact ih m m2 (k + 1) hadd
    · rw [if_neg hun] at hadd
      by_cases hguard : (!(m ⟨txid, k⟩).isNone && !cb) = true
      · rw [if_pos hguard] at hadd
        exact absurd hadd (by simp)
      · rw [if_neg hguard] at hadd
        rw [Option.map_eq_some'] at hadd
        obtain ⟨⟨pm, pf⟩, hp, hfp⟩ := hadd
        rw [Prod.mk.injEq] at hfp
        have hm2 : pm = m2 := hfp.1
        have hflag : ((m ⟨txid, k⟩).isNone && pf) = true := hfp.2
        have hfresh : (m ⟨txid, k⟩) = none := by
          rcases hf : m ⟨txid, k⟩ with _ | c2
          · rfl
          · rw [hf] at hflag
            simp at hflag
        have hrest : pf = true := by
          rw [hfresh] at hflag
          simpa using hflag
        rw [hrest] at hp
        rw [← hm2]
        -- the added coin is present in the final map
        have hpresent : pm ⟨txid, k⟩ = some ⟨out, h, cb, cs, t⟩ := by
          rw [addOutputs_untouched txid h cb cs t rest _ pm (k + 1) true hp
              ⟨txid, k⟩ (Or.inr (Nat.lt_succ_self k))]
          exact insertCoin_self m ⟨txid, k⟩ _
        simp only [disconnectOutputs, if_neg hun]
        rw [hpresent]
        simp only []
        -- the erased final map is the add result over the base map
        have herase := addOutputs_erase txid h cb cs t rest
          (insertCoin m ⟨txid, k⟩ ⟨out, h, cb, cs, t⟩) (k + 1) ⟨txid, k⟩
          (Or.inr (Nat.lt_succ_self k))
        rw [hp] at herase
        rw [eraseCoin_insertCoin, eraseCoin_of_none m _ hfresh] at herase
        have hdis := ih m (eraseCoin pm ⟨txid, k⟩) (k + 1) herase
        rw [hdis]
        simp

/-! ### Transaction- and block-level inversion -/

theorem UpdateCoins_good {tx : Tx} {m m1 : CoinsMap} {us : List Coin} {f : Bool}
    {nHeight : Nat} (hh : nHeight ≠ 0) (hg : GoodCoins m)
    (h : UpdateCoins tx m nHeight = some (m1, us, f)) : GoodCoins m1 := by
  unfold UpdateCoins at h
  by_cases hcb : tx.isCoinBase
  · rw [if_pos hcb] at h
    simp only [Option.map_eq_some'] at h
    obtain ⟨q, hq, hfq⟩ := h
    rw [Prod.mk.injEq] at hfq
    rw [← hfq.1]
    exact addOutputs_good _ _ _ _ _ hh _ _ _ _ _ hg hq
  · rw [if_neg hcb] at h
    cases hsp : spendInputs m tx.vin with
    | none => rw [hsp] at h; exact absurd h (by simp)
    | some p =>
      rw [hsp] at h
      simp only [Option.map_eq_some'] at h
      obtain ⟨q, hq, hfq⟩ := h
      rw [Prod.mk.injEq] at hfq
      rw [← hfq.1]
      exact addOutputs_good _ _ _ _ _ hh _ _ _ _ _
        (spendInputs_good _ _ _ _ hg hsp) hq

theorem UpdateCoins_disconnectTx {tx : Tx} {m m1 : CoinsMap} {us : List Coin}
    {nHeight : Nat} (hcb : tx.isCoinBase = false) (hg : GoodCoins m)
    (h : UpdateCoins tx m nHeight = some (m1, us, true)) :
    disconnectTx nHeight m1 tx us true = some (m, true) := by
  unfold UpdateCoins at h
  rw [hcb] at h
  simp only [Bool.false_eq_true, if_false] at h
  cases hsp : spendInputs m tx.vin with
  | none => rw [hsp] at h; exact absurd h (by simp)
  | some p =>
    obtain ⟨ms, us0⟩ := p
    rw [hsp] at h
    simp only [Option.map_eq_some'] at h
    obtain ⟨⟨am, af⟩, hq, hfq⟩ := h
    rw [Prod.mk.injEq, Prod.mk.injEq] at hfq
    have ham : am = m1 := hfq.1
    have hus0 : us0 = us := hfq.2.1
    have haf : af = true := hfq.2.2
    rw [ham, haf] at hq
    rw [hus0] at hsp
    have hdis := addOutputs_disconnect tx.txid nHeight false tx.isCoinStake
      tx.nTime tx.vout ms m1 0 hq
    have hlen : us.length = tx.vin.length := spendInputs_length tx.vin m ms us hsp
    have happ := spendInputs_applyUndos tx.vin m ms us hg hsp
    unfold disconnectTx
    simp only [hcb]
    simp [hdis, hlen, happ]

theorem UpdateCoins_disconnectTx_cb {tx : Tx} {m m1 : CoinsMap} {us : List Coin}
    {nHeight : Nat} (hcb : tx.isCoinBase = true)
    (h : UpdateCoins tx m nHeight = some (m1, us, true)) :
    disconnectTx nHeight m1 tx [] false = some (m, true) := by
  unfold UpdateCoins at h
  rw [if_pos hcb] at h
  simp only [Option.map_eq_some'] at h
  obtain ⟨⟨am, af⟩, hq, hfq⟩ := h
  rw [Prod.mk.injEq, Prod.mk.injEq] at hfq
  have ham : am = m1 := hfq.1
  have haf : af = true := hfq.2.2
  rw [ham, haf] at hq
  have hdis := addOutputs_disconnect tx.txid nHeight tx.isCoinBase tx.isCoinStake
    tx.nTime tx.vout m m1 0 hq
  unfold disconnectTx
  simp [hdis]

theorem connectTxs_length {nHeight : Nat} (txs : List Tx) :
    ∀ (m m2 : CoinsMap) (us : List (List Coin)) (f : Bool),
    connectTxs nHeight m txs = some (m2, us, f) → us.length = txs.length := by
  induction txs with
  | nil =>
    intro m m2 us f h
    simp only [connectTxs, Option.some_inj, Prod.mk.injEq] at h
    rw [← h.2.1]
    rfl
  | cons tx rest ih =>
    intro m m2 us f h
    simp only [connectTxs] at h
    cases hu : UpdateCoins tx m nHeight with
    | none => rw [hu] at h; exact absurd h (by simp)
    | some p =>
      rw [hu] at h
      simp only [Option.map_eq_some'] at h
      obtain ⟨q, hq, hfq⟩ := h
      rw [Prod.mk.injEq, Prod.mk.injEq] at hfq
      rw [← hfq.2.1]
      simp [ih _ _ _ _ hq]

theorem connectTxs_disconnectTxs {nHeight : Nat} (hh : nHeight ≠ 0) (txs : List Tx) :
    ∀ (m m2 : CoinsMap) (us : List (List Coin)), GoodCoins m →
    (∀ tx ∈ txs, tx.isCoinBase = false) →
    connectTxs nHeight m txs = some (m2, us, true) →
    disconnectTxs nHeight m2 txs us = some (m, true) := by
  induction txs with
  | nil =>
    intro m m2 us hg hall h
    simp only [connectTxs, Option.some_inj, Prod.mk.injEq] at h
    rw [← h.1, ← h.2.1]
    rfl
  | cons tx rest ih =>
    intro m m2 us hg hall h
    simp only [connectTxs] at h
    cases hu : UpdateCoins tx m nHeight with
    | none => rw [hu] at h; exact absurd h (by simp)
    | some p =>
      obtain ⟨pm, pu, pf⟩ := p
      rw [hu] at h
      simp only [Option.map_eq_some'] at h
      obtain ⟨⟨qm, qu, qf⟩, hq, hfq⟩ := h
      rw [Prod.mk.injEq, Prod.mk.injEq] at hfq
      have hqm : qm = m2 := hfq.1
      have hqu : pu :: qu = us := hfq.2.1
      have hqf : (pf && qf) = true := hfq.2.2
      rw [Bool.and_eq_true] at hqf
      rw [hqm, hqf.2] at hq
      rw [hqf.1] at hu
      have hgood1 : GoodCoins pm := UpdateCoins_good hh hg hu
      have hrest := ih pm m2 qu hgood1 (fun t ht => hall t (List.mem_cons_of_mem tx ht)) hq
      have hstep := UpdateCoins_disconnectTx (hall tx (List.mem_cons_self tx rest)) hg hu
      rw [← hqu]
      simp only [disconnectTxs]
      rw [hrest]
      simp [hstep]

theorem revert_apply_tokens (ms : List TokenMutation) : ∀ s : TokenState,
    revertTokenUndos (applyTokenMutations s ms).1 (applyTokenMutations s ms).2 = s := by
  induction ms with
  | nil => intro s; rfl
  | cons mu rest ih =>
    intro s
    simp only [applyTokenMutations, revertTokenUndos]
    rw [ih (applyTokenMutation s mu).1]
    funext n
    unfold revertTokenUndo applyTokenMutation
    by_cases hn : n = mu.name <;> simp [hn]

/-- C2: connecting a block onto `prev_state` and then disconnecting it
restores the Coin View and the Token State exactly (even the best-block
pointer returns to the predecessor, which equals `prev_state`'s), with
`DisconnectBlock` reporting a clean result; moreover `ApplyTxInUndo` on an
outpoint that already holds a coin overwrites it and reports unclean
(`DISCONNECT_UNCLEAN`) rather than failing, and re-applying the same undo
is idempotent. Hypotheses: the block has the `CheckBlock` shape (first
transaction and only that one is the coinbase), the height is nonzero, the
starting view holds well-formed coins, and the connect succeeded with no
coin overwritten (the clean-connect case; the overwrite case is the second
conjunct). -/
theorem C2_undo_round_trip (v : ChainView) (b : Block) (nHeight : Nat)
    (hshape : blockShape b = true) (hh : nHeight ≠ 0) (hg : GoodCoins v.coins)
    (hc : connectFresh v b nHeight = true) :
    (∃ r, ConnectBlockState v b nHeight = some r ∧
      ∃ w, DisconnectBlockState r.1 b r.2.1 nHeight = some (w, true) ∧
        (∀ o, w.coins o = v.coins o) ∧ (∀ n, w.tokens n = v.tokens n) ∧
        w.bestBlock = v.bestBlock) ∧
    (∀ (m : CoinsMap) (o : OutPoint) (c u : Coin), m o = some c →
      u.nHeight ≠ 0 → u.out.unspendable = false →
      ApplyTxInUndo u m o = some (insertCoin m o u, false) ∧
      ApplyTxInUndo u (insertCoin m o u) o = some (insertCoin m o u, false)) := by
  constructor
  · unfold connectFresh at hc
    cases hr : ConnectBlockState v b nHeight with
    | none => simp [hr] at hc
    | some r =>
      simp only [hr] at hc
      refine ⟨r, rfl, ?_⟩
      unfold ConnectBlockState at hr
      by_cases hbb : v.bestBlock ≠ b.prevHash
      · rw [if_pos hbb] at hr
        exact absurd hr (by simp)
      · rw [if_neg hbb] at hr
        push_neg at hbb
        unfold blockShape at hshape
        cases hvtx : b.vtx with
        | nil => rw [hvtx] at hshape; exact absurd hshape (by simp)
        | cons cb rest =>
          simp only [hvtx] at hr hshape
          simp only [Bool.and_eq_true, List.all_eq_true] at hshape
          obtain ⟨hcb, hrestcb⟩ := hshape
          cases hp : UpdateCoins cb v.coins nHeight with
          | none => simp [hp] at hr
          | some p =>
            simp only [hp] at hr
            cases hq : connectTxs nHeight p.1 rest with
            | none => simp [hq] at hr
            | some q =>
              simp only [hq, Option.some_inj] at hr
              rw [← hr] at hc
              simp only [Bool.and_eq_true] at hc
              obtain ⟨hpf, hqf⟩ := hc
              have hp2 : UpdateCoins cb v.coins nHeight = some (p.1, p.2.1, true) := by
                rw [hp, ← hpf]
              have hq2 : connectTxs nHeight p.1 rest = some (q.1, q.2.1, true) := by
                rw [hq, ← hqf]
              have hgood1 : GoodCoins p.1 := UpdateCoins_good hh hg hp2
              have hrest := connectTxs_disconnectTxs hh rest p.1 q.1 q.2.1 hgood1
                (fun t ht => by simpa using hrestcb t ht) hq2
              have hcbstep := UpdateCoins_disconnectTx_cb hcb hp2
              have hlen := connectTxs_length rest p.1 q.1 q.2.1 true hq2
              refine ⟨{ coins := v.coins, tokens := v.tokens, bestBlock := b.prevHash },
                ?_, fun o => rfl, fun n => rfl, hbb.symm⟩
              rw [← hr]
              unfold DisconnectBlockState
              simp only [hvtx, List.length_cons]
              simp [hlen, hrest, hcbstep, revert_apply_tokens]
  · intro m o c u hm hh2 hu
    constructor
    · exact ApplyTxInUndo_overwrite u c m o hm hh2 hu
    · rw [ApplyTxInUndo_overwrite u u (insertCoin m o u) o (insertCoin_self m o u) hh2 hu]
      rw [insertCoin_insertCoin]

/-- Example state for the C2 witness: one spendable coin at height 1. -/
def exOut1 : OutPoint := ⟨1, 0⟩

/-- Example coin for the C2 witness. -/
def exCoin1 : Coin := ⟨⟨25, 3, false⟩, 1, false, false, 0⟩

/-- Example coin map for the C2 witness. -/
def exCoins : CoinsMap := fun o => if o = exOut1 then some exCoin1 else none

/-- Example starting state for the C2 witness. -/
def exView : ChainView := ⟨exCoins, fun _ => none, 77⟩

/-- Example coinbase transaction for the C2 witness. -/
def exCb : Tx := ⟨10, [], [⟨50, 7, false⟩], true, false, 5⟩

/-- Example spending transaction for the C2 witness. -/
def exTx : Tx := ⟨11, [exOut1], [⟨20, 8, false⟩], false, false, 6⟩

/-- Example block for the C2 witness: a coinbase plus one transaction that
spends the pre-existing coin, and one token mutation. -/
def exBlock : Block := ⟨78, 77, [exCb, exTx], [⟨4, some 9⟩]⟩

/-- Closed witness for C2: the round trip on a concrete two-transaction
block over a concrete one-coin view. -/
theorem C2_undo_round_trip_witness :
    (∃ r, ConnectBlockState exView exBlock 5 = some r ∧
      ∃ w, DisconnectBlockState r.1 exBlock r.2.1 5 = some (w, true) ∧
        (∀ o, w.coins o = exView.coins o) ∧ (∀ n, w.tokens n = exView.tokens n) ∧
        w.bestBlock = exView.bestBlock) ∧
    (∀ (m : CoinsMap) (o : OutPoint) (c u : Coin), m o = some c →
      u.nHeight ≠ 0 → u.out.unspendable = false →
      ApplyTxInUndo u m o = some (insertCoin m o u, false) ∧
      ApplyTxInUndo u (insertCoin m o u) o = some (insertCoin m o u, false)) := by
  refine C2_undo_round_trip exView exBlock 5 (by decide) (by decide) ?_ (by decide)
  intro o c h
  have h2 : (if o = exOut1 then some exCoin1 else none) = some c := h
  by_cases ho : o = exOut1
  · rw [if_pos ho] at h2
    injection h2 with h3
    rw [← h3]
    exact ⟨by decide, by decide⟩
  · rw [if_neg ho] at h2
    exact absurd h2 (by simp)

/-! ### Mempool accept path (validation.cpp, `AcceptToMemoryPoolWorker`)

The accept path is a sequence of checks executed in source order. Checks
implemented by collaborator modules that are not part of src/
(`CheckTransaction`, `IsStandardTx`, `CheckFinalTx`, `CheckSequenceLocks`,
`CheckTxInputs`, sigop counting, fee policy, script verification) are
abstracted as named Boolean inputs; the logic the claims are about — the
in-pool conflict scan over `mapNextTx` with `fReplacementOptOut = true`,
input availability over the pool-augmented view, and the ancestor-limit
gate — is embedded structurally. -/

/-- A mempool transaction: txid, inputs, number of outputs, virtual size,
fee, and the coinbase/coinstake flags. -/
structure MpTx where
  txid : Nat
  vin : List OutPoint
  voutCount : Nat
  size : Nat
  fee : Int
  isCoinBase : Bool
  isCoinStake : Bool
deriving DecidableEq

/-- The mempool: its entry set (insertion order). -/
structure MemPool where
  entries : List MpTx
deriving DecidableEq

/-- `pool.mapNextTx` lookup: is this outpoint already spent by an in-pool
transaction? -/
def mapNextTxHit (pool : MemPool) (o : OutPoint) : Bool :=
  pool.entries.any (fun e => e.vin.any (fun o2 => decide (o2 = o)))

/-- `pool.exists(hash)`. -/
def poolHasTx (pool : MemPool) (txid : Nat) : Bool :=
  pool.entries.any (fun e => decide (e.txid = txid))

/-- Modelled from the spec: the default ancestor/descendant limits
(validation.h is not part of src/; the spec's ancestor-limit scenario fixes
the count limit at 25). -/
def DEFAULT_ANCESTOR_LIMIT : Nat := 25

/-- Modelled from the spec: default ancestor size limit, in kilobytes. -/
def DEFAULT_ANCESTOR_SIZE_LIMIT : Nat := 101

/-- Modelled from the spec: default descendant count limit. -/
def DEFAULT_DESCENDANT_LIMIT : Nat := 25

/-- Modelled from the spec: default descendant size limit, in kilobytes. -/
def DEFAULT_DESCENDANT_SIZE_LIMIT : Nat := 101

/-- In-pool parents of a set of inputs: pool txids referenced as prevouts. -/
def inPoolParents (pool : MemPool) (vin : List OutPoint) : List Nat :=
  ((vin.map (fun o => o.hash)).filter
    (fun h2 => pool.entries.any (fun e2 => decide (e2.txid = h2)))).dedup

/-- In-pool parents of an in-pool transaction. -/
def txParents (pool : MemPool) (txid : Nat) : List Nat :=
  match pool.entries.find? (fun e => decide (e.txid = txid)) with
  | none => []
  | some e => inPoolParents pool e.vin

/-- Generic fuelled frontier-based transitive closure: `step` lists the
direct neighbours of a node; every reachable node is added to the
accumulator exactly once. -/
def closureFrom (step : Nat → List Nat) : Nat → List Nat → List Nat → List Nat
  | 0, acc, _ => acc
  | _ + 1, acc, [] => acc
  | f + 1, acc, x :: frontier =>
    let nw := (step x).filter (fun y => !(acc.any (fun z => decide (z = y))))
    closureFrom step f (acc ++ nw) (frontier ++ nw)

/-- Modelled from the spec: the transitive in-pool ancestor set of a
candidate transaction's inputs (`CalculateMemPoolAncestors`, txmempool.cpp
not part of src/). -/
def calcAncestors (pool : MemPool) (vin : List OutPoint) : List Nat :=
  closureFrom (txParents pool) (2 * pool.entries.length + 2)
    (inPoolParents pool vin) (inPoolParents pool vin)

/-- In-pool children of an in-pool transaction. -/
def txChildren (pool : MemPool) (txid : Nat) : List Nat :=
  ((pool.entries.filter
    (fun e => e.vin.any (fun o => decide (o.hash = txid)))).map (fun e => e.txid)).dedup

/-- Modelled from the spec: the transitive in-pool descendant set of an
in-pool transaction, itself included. -/
def descendantsWithSelf (pool : MemPool) (txid : Nat) : List Nat :=
  closureFrom (txChildren pool) (2 * pool.entries.length + 2) [txid] [txid]

/-- Total virtual size of the pool entries in a txid set. -/
def sizeOfSet (pool : MemPool) (s : List Nat) : Nat :=
  ((pool.entries.filter (fun e => s.any (fun h2 => decide (h2 = e.txid)))).map
    (fun e => e.size)).sum

/-- Modelled from the spec: the checks of `CalculateMemPoolAncestors`
(txmempool.cpp, not part of src/): reject when the ancestor count or the
cumulative ancestor size exceeds the configured caps, or when admitting this
transaction would push any ancestor's descendant count or size over its
limit. -/
def calculateMemPoolAncestorsOk (pool : MemPool) (tx : MpTx)
    (limitA limitASize limitD limitDSize : Nat) : Bool :=
  let anc := calcAncestors pool tx.vin
  decide (anc.length + 1 ≤ limitA) &&
  decide (sizeOfSet pool anc + tx.size ≤ limitASize) &&
  anc.all (fun a =>
    let d := descendantsWithSelf pool a
    decide (d.length + 1 ≤ limitD) && decide (sizeOfSet pool d + tx.size ≤ limitDSize))

/-- The results of the accept-path checks implemented outside src/
(validation.cpp delegates to them); each field stands for one named check,
in source order. -/
structure AcceptEnv where
  checkTransactionOk : Bool
  witnessOk : Bool
  standardOk : Bool
  finalOk : Bool
  timeOk : Bool
  versionOk : Bool
  bip68Ok : Bool
  checkTxInputsOk : Bool
  tokensOk : Bool
  inputsStandardOk : Bool
  sigopsOk : Bool
  feeOk : Bool
  scriptsOk : Bool
deriving DecidableEq

/-- Outcome of the accept path: accepted (with the updated pool), rejected
with a reason (pool untouched), or missing inputs (pool untouched, not an
invalidity). -/
inductive AcceptResult where
  | accepted : MemPool → AcceptResult
  | rejected : String → MemPool → AcceptResult
  | missingInputs : MemPool → AcceptResult
deriving DecidableEq

/-- Embeds the decision sequence of `AcceptToMemoryPoolWorker`
(validation.cpp lines 526-751 and the insertion at the end): structural
checks; coinbase/coinstake bans; the `mapNextTx` conflict scan in which
`fReplacementOptOut` is the constant `true`, so any in-pool conflict is
rejected with `txn-mempool-conflict` before fees are ever consulted; input
availability against the pool-augmented view; the ancestor-limit gate
rejecting with `too-long-mempool-chain`; and finally insertion. Reasons of
the abstracted external checks are placeholders; the reason strings the
claims name (`txn-already-in-mempool`, `txn-mempool-conflict`,
`too-long-mempool-chain`) are verbatim from the source. -/
def AcceptToMemoryPoolWorker (env : AcceptEnv) (coins : CoinsMap)
    (pool : MemPool) (tx : MpTx) : AcceptResult :=
  if !env.checkTransactionOk then AcceptResult.rejected "check-transaction" pool
  else if tx.isCoinBase then AcceptResult.rejected "coinbase" pool
  else if !env.witnessOk then AcceptResult.rejected "no-witness-yet" pool
  else if tx.isCoinStake then AcceptResult.rejected "coinstake" pool
  else if !env.standardOk then AcceptResult.rejected "nonstandard" pool
  else if !env.finalOk then AcceptResult.rejected "non-final" pool
  else if !env.timeOk then AcceptResult.rejected "time-too-new" pool
  else if !env.versionOk then AcceptResult.rejected "bad-transaction-v2-not-active" pool
  else if poolHasTx pool tx.txid then AcceptResult.rejected "txn-already-in-mempool" pool
  else if tx.vin.any (fun o => mapNextTxHit pool o) then
    AcceptResult.rejected "txn-mempool-conflict" pool
  else if !(tx.vin.all (fun o => (coins o).isSome ||
      pool.entries.any (fun e => decide (e.txid = o.hash) && decide (o.n < e.voutCount)))) then
    AcceptResult.missingInputs pool
  else if !env.bip68Ok then AcceptResult.rejected "non-BIP68-final" pool
  else if !env.checkTxInputsOk then AcceptResult.rejected "bad-txns-inputs" pool
  else if !env.tokensOk then AcceptResult.rejected "bad-txns-tokens" pool
  else if !env.inputsStandardOk then AcceptResult.rejected "bad-txns-nonstandard-inputs" pool
  else if !env.sigopsOk then AcceptResult.rejected "bad-txns-too-many-sigops" pool
  else if !(calculateMemPoolAncestorsOk pool tx DEFAULT_ANCESTOR_LIMIT
      (DEFAULT_ANCESTOR_SIZE_LIMIT * 1000) DEFAULT_DESCENDANT_LIMIT
      (DEFAULT_DESCENDANT_SIZE_LIMIT * 1000)) then
    AcceptResult.rejected "too-long-mempool-chain" pool
  else if !env.feeOk then AcceptResult.rejected "mempool-min-fee-not-met" pool
  else if !env.scriptsOk then AcceptResult.rejected "script-verify-failed" pool
  else AcceptResult.accepted ⟨pool.entries ++ [tx]⟩

/-- An environment in which every abstracted external check passes. -/
def passEnv : AcceptEnv := ⟨true, true, true, true, true, true, true, true,
  true, true, true, true, true⟩

/-- C5: when any input of the candidate transaction is already spent by an
in-pool transaction, the accept path rejects it with `txn-mempool-conflict`
— whatever its fee is (the fee is not consulted; `fReplacementOptOut` is
unconditionally true so the replacement branch is unreachable) — and the
pool (including the conflicting entry) is unchanged. Hypotheses: the
checks preceding the conflict scan pass (structural checks, not
coinbase/coinstake, not already in the pool). -/
theorem C5_mempool_conflict (env : AcceptEnv) (coins : CoinsMap)
    (pool : MemPool) (tx : MpTx)
    (h1 : env.checkTransactionOk = true) (h2 : tx.isCoinBase = false)
    (h3 : env.witnessOk = true) (h4 : tx.isCoinStake = false)
    (h5 : env.standardOk = true) (h6 : env.finalOk = true)
    (h7 : env.timeOk = true) (h8 : env.versionOk = true)
    (h9 : poolHasTx pool tx.txid = false)
    (hconf : tx.vin.any (fun o => mapNextTxHit pool o) = true) :
    (∀ fee : Int, AcceptToMemoryPoolWorker env coins pool { tx with fee := fee }
      = AcceptResult.rejected "txn-mempool-conflict" pool) ∧
    AcceptToMemoryPoolWorker env coins pool tx
      = AcceptResult.rejected "txn-mempool-conflict" pool := by
  have hmain : ∀ fee : Int, AcceptToMemoryPoolWorker env coins pool { tx with fee := fee }
      = AcceptResult.rejected "txn-mempool-conflict" pool := by
    intro fee
    unfold AcceptToMemoryPoolWorker
    simp only [h1, h2, h3, h4, h5, h6, h7, h8]
    have h9a : poolHasTx pool { tx with fee := fee }.txid = false := h9
    have hca : { tx with fee := fee }.vin.any (fun o => mapNextTxHit pool o) = true := hconf
    simp [h9a, hca]
  refine ⟨hmain, ?_⟩
  have := hmain tx.fee
  simpa using this

/-- Closed witness for C5: a concrete pool entry spends outpoint `(1,0)`;
a second transaction spending the same outpoint is rejected with
`txn-mempool-conflict` even with a much larger fee, and the pool keeps the
first transaction. -/
theorem C5_mempool_conflict_witness :
    (∀ fee : Int, AcceptToMemoryPoolWorker passEnv exCoins
        ⟨[⟨200, [⟨1, 0⟩], 1, 100, 1, false, false⟩]⟩
        { txid := 201, vin := [⟨1, 0⟩], voutCount := 1, size := 100, fee := fee,
          isCoinBase := false, isCoinStake := false }
      = AcceptResult.rejected "txn-mempool-conflict"
          ⟨[⟨200, [⟨1, 0⟩], 1, 100, 1, false, false⟩]⟩) ∧
    AcceptToMemoryPoolWorker passEnv exCoins
        ⟨[⟨200, [⟨1, 0⟩], 1, 100, 1, false, false⟩]⟩
        { txid := 201, vin := [⟨1, 0⟩], voutCount := 1, size := 100, fee := 2,
          isCoinBase := false, isCoinStake := false }
      = AcceptResult.rejected "txn-mempool-conflict"
          ⟨[⟨200, [⟨1, 0⟩], 1, 100, 1, false, false⟩]⟩ := by
  have h := C5_mempool_conflict passEnv exCoins
    ⟨[⟨200, [⟨1, 0⟩], 1, 100, 1, false, false⟩]⟩
    { txid := 201, vin := [⟨1, 0⟩], voutCount := 1, size := 100, fee := 2,
      isCoinBase := false, isCoinStake := false }
    rfl rfl rfl rfl rfl rfl rfl rfl (by decide) (by decide)
  exact ⟨fun fee => h.1 fee, h.2⟩

/-- The k-th transaction of the spec's ancestor-limit scenario: transaction
`k` spends the single output of transaction `k-1`; transaction 1 spends a
confirmed coin at outpoint `(100, 0)`. -/
def chainTx (k : Nat) : MpTx :=
  { txid := 100 + k, vin := [⟨99 + k, 0⟩], voutCount := 1, size := 100, fee := 1,
    isCoinBase := false, isCoinStake := false }

/-- Confirmed coins backing the ancestor-limit scenario. -/
def chainCoins : CoinsMap := fun o => if o = ⟨100, 0⟩ then some exCoin1 else none

/-- Submit the first `n` chain transactions through the accept path in
order; the Bool records that every one of them was accepted. -/
def chainRun : Nat → MemPool × Bool
  | 0 => (⟨[]⟩, true)
  | n + 1 =>
    let p := chainRun n
    match AcceptToMemoryPoolWorker passEnv chainCoins p.1 (chainTx (n + 1)) with
    | AcceptResult.accepted p2 => (p2, p.2)
    | _ => (p.1, false)

/-- The spec's end-to-end ancestor-limit scenario: the first 25 chained
transactions are all accepted, and the 26th is rejected with
`too-long-mempool-chain`, leaving the pool unchanged. -/
def chainScenario : Bool :=
  (chainRun 25).2 && decide ((chainRun 25).1.entries.length = 25) &&
  (match AcceptToMemoryPoolWorker passEnv chainCoins (chainRun 25).1 (chainTx 26) with
   | AcceptResult.rejected r p =>
     decide (r = "too-long-mempool-chain") && decide (p = (chainRun 25).1)
   | _ => false)

/-- The 25-entry chain pool, written directly. -/
def chainPool : MemPool := ⟨(List.range 25).map (fun k => chainTx (k + 1))⟩

set_option maxRecDepth 40000 in
set_option maxHeartbeats 3000000 in
/-- C6: with every stage before the ancestor gate passing, the accept path
rejects with `too-long-mempool-chain` exactly when the transitive in-pool
ancestor set of the candidate violates the count/size caps or would push
an ancestor's descendant count/size over its limit; and in the spec's
scenario a chain of 26 dependent transactions has its first 25 accepted
and the 26th rejected with that reason. -/
theorem C6_ancestor_limit_gate :
    (∀ (env : AcceptEnv) (coins : CoinsMap) (pool : MemPool) (tx : MpTx),
      env.checkTransactionOk = true → tx.isCoinBase = false → env.witnessOk = true →
      tx.isCoinStake = false → env.standardOk = true → env.finalOk = true →
      env.timeOk = true → env.versionOk = true → poolHasTx pool tx.txid = false →
      tx.vin.any (fun o => mapNextTxHit pool o) = false →
      (tx.vin.all (fun o => (coins o).isSome ||
        pool.entries.any (fun e => decide (e.txid = o.hash) &&
          decide (o.n < e.voutCount)))) = true →
      env.bip68Ok = true → env.checkTxInputsOk = true → env.tokensOk = true →
      env.inputsStandardOk = true → env.sigopsOk = true →
      (AcceptToMemoryPoolWorker env coins pool tx
          = AcceptResult.rejected "too-long-mempool-chain" pool ↔
        calculateMemPoolAncestorsOk pool tx DEFAULT_ANCESTOR_LIMIT
          (DEFAULT_ANCESTOR_SIZE_LIMIT * 1000) DEFAULT_DESCENDANT_LIMIT
          (DEFAULT_DESCENDANT_SIZE_LIMIT * 1000) = false)) ∧
    chainScenario = true := by
  constructor
  · intro env coins pool tx h1 h2 h3 h4 h5 h6 h7 h8 h9 h10 h11 h12 h13 h14 h15 h16
    unfold AcceptToMemoryPoolWorker
    simp only [h1, h2, h3, h4, h5, h6, h7, h8, h9, h10, h11, h12, h13, h14, h15, h16,
      Bool.not_true, Bool.false_eq_true, if_false, Bool.not_false, Bool.true_eq_false]
    by_cases hA : calculateMemPoolAncestorsOk pool tx DEFAULT_ANCESTOR_LIMIT
        (DEFAULT_ANCESTOR_SIZE_LIMIT * 1000) DEFAULT_DESCENDANT_LIMIT
        (DEFAULT_DESCENDANT_SIZE_LIMIT * 1000) = true
    · simp only [hA, Bool.not_true, Bool.false_eq_true, if_false]
      constructor
      · intro hcontra
        cases hf : env.feeOk <;> cases hs : env.scriptsOk <;>
          simp [hf, hs] at hcontra
      · intro hcontra
        exact absurd hcontra (by simp)
    · have hA2 : calculateMemPoolAncestorsOk pool tx DEFAULT_ANCESTOR_LIMIT
          (DEFAULT_ANCESTOR_SIZE_LIMIT * 1000) DEFAULT_DESCENDANT_LIMIT
          (DEFAULT_DESCENDANT_SIZE_LIMIT * 1000) = false := by
        cases hx : calculateMemPoolAncestorsOk pool tx DEFAULT_ANCESTOR_LIMIT
            (DEFAULT_ANCESTOR_SIZE_LIMIT * 1000) DEFAULT_DESCENDANT_LIMIT
            (DEFAULT_DESCENDANT_SIZE_LIMIT * 1000)
        · rfl
        · exact absurd hx hA
      simp [hA2]
  · decide

set_option maxRecDepth 40000 in
set_option maxHeartbeats 1000000 in
/-- Closed witness for C6: applying the gate theorem to the literal 25-entry
chain pool shows the 26th chained transaction is rejected with
`too-long-mempool-chain`. -/
theorem C6_ancestor_limit_gate_witness :
    AcceptToMemoryPoolWorker passEnv chainCoins chainPool (chainTx 26)
      = AcceptResult.rejected "too-long-mempool-chain" chainPool := by
  exact (C6_ancestor_limit_gate.1 passEnv chainCoins chainPool (chainTx 26)
    rfl rfl rfl rfl rfl rfl rfl rfl (by decide) (by decide) (by decide)
    rfl rfl rfl rfl rfl).mpr (by decide)

/-! ### Disconnect pool and reorg re-admission (validation.cpp,
`DisconnectTip` lines 3516-3527 and `UpdateMempoolForReorg` lines 451-488) -/

/-- The transaction-push step of `DisconnectTip`: iterate the block's
transactions in reverse (`vtx.rbegin()..rend()`) and append each to the
disconnect pool (`DisconnectedBlockTransactions::addTransaction` appends in
insertion order). Note every transaction is pushed, the coinbase and
coinstake included. -/
def disconnectTipPool (vtx : List Tx) (dpool : List Tx) : List Tx :=
  dpool ++ vtx.reverse

/-- One action of the reorg replay: a successful re-accept, or a recursive
removal (`mempool.removeRecursive`) of the transaction and its in-pool
descendants. -/
inductive ReplayAction where
  | tryAcceptOk : Nat → ReplayAction
  | removeRecursive : Nat → ReplayAction
deriving DecidableEq

/-- Embeds the loop of `UpdateMempoolForReorg`: walk the disconnect pool's
insertion order in reverse; a transaction is removed recursively when
re-admission is skipped (`!fAddToMempool`), when it is a coinbase or a
coinstake, or when `AcceptToMemoryPool` (with `bypass_limits = true`,
abstracted as the oracle `acc`) fails; otherwise it is re-accepted. -/
def UpdateMempoolForReorg (acc : Tx → Bool) (fAddToMempool : Bool)
    (dpool : List Tx) : List ReplayAction :=
  dpool.reverse.map (fun t =>
    if !fAddToMempool || t.isCoinBase || t.isCoinStake || !(acc t) then
      ReplayAction.removeRecursive t.txid
    else ReplayAction.tryAcceptOk t.txid)

/-- Modelled from the spec: `CTxMemPool::removeRecursive` (txmempool.cpp,
not part of src/) evicts a transaction together with its transitive in-pool
descendants. -/
def removeRecursivePool (pool : MemPool) (txid : Nat) : MemPool :=
  ⟨pool.entries.filter
    (fun e => !((descendantsWithSelf pool txid).any (fun d => decide (d = e.txid))))⟩

/-- A concrete coinbase transaction for the C7 counterexample. -/
def c7cb : Tx := ⟨100, [], [⟨50, 7, false⟩], true, false, 0⟩

/-- A concrete ordinary transaction for the C7 counterexample. -/
def c7t1 : Tx := ⟨101, [⟨1, 0⟩], [⟨20, 8, false⟩], false, false, 0⟩

/-- C7 counterexample: the claim says the disconnected block's transactions
*except coinbase and coinstake* enter the disconnect pool, but
`DisconnectTip` pushes every transaction of the block — disconnecting the
concrete block `[c7cb, c7t1]` puts the coinbase `c7cb` into the pool
(in reverse block order). The coinbase is only skipped later, at
re-admission. -/
theorem C7_counterexample :
    disconnectTipPool [c7cb, c7t1] [] = [c7t1, c7cb] ∧
    c7cb ∈ disconnectTipPool [c7cb, c7t1] [] ∧ c7cb.isCoinBase = true := by
  refine ⟨rfl, ?_, rfl⟩
  decide

/-- C7 (amended): *all* transactions of each disconnected block enter the
disconnect pool in reverse block order (so after disconnecting newest block
`B2` and then older block `B1` the pool is `B2.reverse ++ B1.reverse`); the
replay walks the pool in reverse insertion order — that is, older block
first, each block in forward order — through the accept path with
`bypass_limits = true`; coinbase and coinstake transactions are not
re-admitted but removed recursively, as is any transaction the accept path
rejects; and a recursive removal evicts the transaction together with every
transitive in-pool dependent. -/
theorem C7_reorg_readmission (B1 B2 : List Tx) (acc : Tx → Bool)
    (pool : MemPool) (txid : Nat) :
    disconnectTipPool B1 (disconnectTipPool B2 []) = B2.reverse ++ B1.reverse ∧
    UpdateMempoolForReorg acc true (B2.reverse ++ B1.reverse) =
      (B1 ++ B2).map (fun t =>
        if t.isCoinBase || t.isCoinStake || !(acc t) then
          ReplayAction.removeRecursive t.txid
        else ReplayAction.tryAcceptOk t.txid) ∧
    (removeRecursivePool pool txid).entries.all
      (fun e => !((descendantsWithSelf pool txid).any (fun d => decide (d = e.txid))))
      = true := by
  refine ⟨by simp [disconnectTipPool], ?_, ?_⟩
  · unfold UpdateMempoolForReorg
    rw [List.reverse_append, List.reverse_reverse, List.reverse_reverse]
    simp
  · unfold removeRecursivePool
    simp only [List.all_eq_true]
    intro e he
    exact (List.mem_filter.mp he).2

/-! ### Header acceptance (validation.cpp, `AcceptBlockHeader` lines
4750-4812)

The block index is modelled as an association list from header hash to an
entry carrying the predecessor hash, the height, the failure flags and the
validity level; `g_failed_blocks` is a list of hashes. `CheckBlockHeader`
and `ContextualCheckBlockHeader` are collaborator checks abstracted as
Boolean inputs. -/

/-- `BLOCK_VALID_SCRIPTS` level used by the `IsValid(BLOCK_VALID_SCRIPTS)`
test guarding the failed-ancestor walk. -/
def BLOCK_VALID_SCRIPTS : Nat := 5

/-- A block-index entry as header acceptance sees it. -/
structure HdrEntry where
  prev : Nat
  height : Nat
  failedValid : Bool
  failedChild : Bool
  validity : Nat
deriving DecidableEq

/-- The header-acceptance state: block index plus `g_failed_blocks`. -/
structure HeaderIndex where
  entries : List (Nat × HdrEntry)
  gFailed : List Nat
deriving DecidableEq

/-- Association-list lookup backing `mapBlockIndex.find`. -/
def lookupPairs : List (Nat × HdrEntry) → Nat → Option HdrEntry
  | [], _ => none
  | p :: rest, h => if p.1 = h then some p.2 else lookupPairs rest h

/-- `mapBlockIndex.find`. -/
def lookupHdr (idx : HeaderIndex) (h : Nat) : Option HdrEntry :=
  lookupPairs idx.entries h

/-- `BLOCK_FAILED_MASK` test on an entry. -/
def hdrFailed (e : HdrEntry) : Bool :=
  e.failedValid || e.failedChild

/-- `CBlockIndex::GetAncestor(target)` by hash, walking `pprev` with fuel. -/
def ancestorHash (idx : HeaderIndex) : Nat → Nat → Nat → Option Nat
  | 0, h, target =>
    match lookupHdr idx h with
    | some e => if e.height = target then some h else none
    | none => none
  | f + 1, h, target =>
    match lookupHdr idx h with
    | none => none
    | some e => if e.height = target then some h else ancestorHash idx f e.prev target

/-- The `g_failed_blocks` walk of `AcceptBlockHeader` (lines 4785-4786):
find a failed block that is an ancestor of the predecessor. -/
def findFailedAncestor (idx : HeaderIndex) (prevHash : Nat) : Option Nat :=
  idx.gFailed.find? (fun fh =>
    match lookupHdr idx fh with
    | some fe => decide (ancestorHash idx (idx.entries.length + 1) prevHash fe.height = some fh)
    | none => false)

/-- Set `BLOCK_FAILED_CHILD` on one entry (`invalid_walk->nStatus |=
BLOCK_FAILED_CHILD`). -/
def setFailedChild (idx : HeaderIndex) (h : Nat) : HeaderIndex :=
  ⟨idx.entries.map (fun p =>
    if p.1 = h then (p.1, { p.2 with failedChild := true }) else p), idx.gFailed⟩

/-- The marking loop of `AcceptBlockHeader` (lines 4788-4793): starting at
the predecessor, set `BLOCK_FAILED_CHILD` on every block walking down until
the known failed ancestor is reached (the failed ancestor itself is not
re-marked). -/
def markFailedChain (fuel : Nat) (idx : HeaderIndex) (walk stop : Nat) : HeaderIndex :=
  match fuel with
  | 0 => idx
  | f + 1 =>
    if walk = stop then idx
    else
      match lookupHdr idx walk with
      | none => idx
      | some e => markFailedChain f (setFailedChild idx walk) e.prev stop

/-- The read-only walk visited by `markFailedChain` (marking does not change
predecessor pointers, so this is the same chain). -/
def walkChain (fuel : Nat) (idx : HeaderIndex) (walk stop : Nat) : List Nat :=
  match fuel with
  | 0 => []
  | f + 1 =>
    if walk = stop then []
    else
      match lookupHdr idx walk with
      | none => []
      | some e => walk :: walkChain f idx e.prev stop

/-- `AddToBlockIndex` as header acceptance uses it: insert a fresh entry at
`VALID_TREE` with height parent+1 (sequence id handling is modelled with the
candidate-set state machine below). -/
def insertHdr (idx : HeaderIndex) (hash prevHash : Nat) : HeaderIndex :=
  let ht := match lookupHdr idx prevHash with
    | some pe => pe.height + 1
    | none => 0
  ⟨idx.entries ++ [(hash, ⟨prevHash, ht, false, false, 2⟩)], idx.gFailed⟩

/-- Result of header acceptance: success with the updated index and whether
a new entry was inserted, or an error reason with the (possibly marked)
index. -/
inductive HdrResult where
  | ok : HeaderIndex → Bool → HdrResult
  | err : String → HeaderIndex → HdrResult
deriving DecidableEq

/-- Embeds the decision structure of `AcceptBlockHeader` (lines 4750-4812)
for non-genesis headers: known hash short-circuits (failed known headers
give `duplicate`); `CheckBlockHeader` (abstracted `checkHeaderOk`); missing
predecessor fails with `prev-blk-not-found`; predecessor with
`BLOCK_FAILED_MASK` fails with `bad-prevblk`;
`ContextualCheckBlockHeader` (abstracted `contextualOk`); if the
predecessor is not `BLOCK_VALID_SCRIPTS`, a `g_failed_blocks` ancestor walk
marks the whole intermediate chain `BLOCK_FAILED_CHILD` and fails with
`bad-prevblk`; otherwise the header is inserted. -/
def AcceptBlockHeaderModel (idx : HeaderIndex) (hash prevHash : Nat)
    (checkHeaderOk contextualOk : Bool) : HdrResult :=
  match lookupHdr idx hash with
  | some e =>
    if hdrFailed e then HdrResult.err "duplicate" idx else HdrResult.ok idx false
  | none =>
    if !checkHeaderOk then HdrResult.err "check-header-failed" idx
    else
      match lookupHdr idx prevHash with
      | none => HdrResult.err "prev-blk-not-found" idx
      | some pe =>
        if hdrFailed pe then HdrResult.err "bad-prevblk" idx
        else if !contextualOk then HdrResult.err "contextual-check-failed" idx
        else if pe.validity < BLOCK_VALID_SCRIPTS then
          match findFailedAncestor idx prevHash with
          | some fh =>
            HdrResult.err "bad-prevblk"
              (markFailedChain (idx.entries.length + 1) idx prevHash fh)
          | none => HdrResult.ok (insertHdr idx hash prevHash) true
        else HdrResult.ok (insertHdr idx hash prevHash) true

theorem lookupPairs_setFlag (l : List (Nat × HdrEntry)) (h x : Nat) :
    lookupPairs
        (l.map (fun p => if p.1 = h then (p.1, { p.2 with failedChild := true }) else p)) x =
      if x = h then (lookupPairs l x).map (fun e => { e with failedChild := true })
      else lookupPairs l x := by
  induction l with
  | nil => by_cases hxh : x = h <;> simp [lookupPairs, hxh]
  | cons a l ih =>
    obtain ⟨k, e⟩ := a
    by_cases hkh : k = h <;> by_cases hkx : k = x
    · have hxh : x = h := by rw [← hkx, hkh]
      rw [List.map_cons]
      simp only [if_pos hkh]
      rw [if_pos hxh]
      simp [lookupPairs, hkx]
    · have hxh : ¬x = h := by
        intro hc
        exact hkx (by rw [hkh, ← hc])
      rw [List.map_cons]
      simp only [if_pos hkh]
      rw [if_neg hxh]
      simp only [lookupPairs, if_neg hkx]
      rw [ih, if_neg hxh]
    · have hxh : ¬x = h := by
        intro hc
        exact hkh (by rw [hkx, hc])
      rw [List.map_cons]
      simp only [if_neg hkh]
      rw [if_neg hxh]
      simp [lookupPairs, hkx]
    · rw [List.map_cons]
      simp only [if_neg hkh]
      by_cases hxh : x = h
      · rw [if_pos hxh]
        simp only [lookupPairs, if_neg hkx]
        rw [ih, if_pos hxh]
      · rw [if_neg hxh]
        simp only [lookupPairs, if_neg hkx]
        rw [ih, if_neg hxh]

theorem lookupHdr_setFailedChild (idx : HeaderIndex) (h x : Nat) :
    lookupHdr (setFailedChild idx h) x =
      if x = h then (lookupHdr idx x).map (fun e => { e with failedChild := true })
      else lookupHdr idx x := by
  unfold lookupHdr setFailedChild
  exact lookupPairs_setFlag idx.entries h x

theorem setFailedChild_keys (idx : HeaderIndex) (h : Nat) :
    (setFailedChild idx h).entries.map Prod.fst = idx.entries.map Prod.fst := by
  unfold setFailedChild
  rw [List.map_map]
  apply List.map_congr_left
  intro p _
  by_cases hp : p.1 = h <;> simp [hp]

theorem setFailedChild_gFailed (idx : HeaderIndex) (h : Nat) :
    (setFailedChild idx h).gFailed = idx.gFailed := rfl

theorem walkChain_setFailedChild (fuel : Nat) : ∀ (idx : HeaderIndex) (h walk stop : Nat),
    walkChain fuel (setFailedChild idx h) walk stop = walkChain fuel idx walk stop := by
  induction fuel with
  | zero => intro idx h walk stop; rfl
  | succ f ih =>
    intro idx h walk stop
    unfold walkChain
    by_cases hws : walk = stop
    · simp [hws]
    · rw [if_neg hws, if_neg hws, lookupHdr_setFailedChild]
      by_cases hwh : walk = h
      · rw [if_pos hwh]
        cases hl : lookupHdr idx walk <;> simp [ih]
      · rw [if_neg hwh]
        cases hl : lookupHdr idx walk <;> simp [ih]

theorem markFailedChain_keys (fuel : Nat) : ∀ (idx : HeaderIndex) (walk stop : Nat),
    (markFailedChain fuel idx walk stop).entries.map Prod.fst
      = idx.entries.map Prod.fst := by
  induction fuel with
  | zero => intro idx walk stop; rfl
  | succ f ih =>
    intro idx walk stop
    unfold markFailedChain
    by_cases hws : walk = stop
    · simp [hws]
    · rw [if_neg hws]
      cases hl : lookupHdr idx walk
      · rfl
      · rw [ih]
        exact setFailedChild_keys idx walk

theorem markFailedChain_untouched (fuel : Nat) : ∀ (idx : HeaderIndex) (walk stop x : Nat),
    x ∉ walkChain fuel idx walk stop →
    lookupHdr (markFailedChain fuel idx walk stop) x = lookupHdr idx x := by
  induction fuel with
  | zero => intro idx walk stop x _; rfl
  | succ f ih =>
    intro idx walk stop x hx
    unfold markFailedChain
    unfold walkChain at hx
    by_cases hws : walk = stop
    · simp [hws]
    · rw [if_neg hws]
      rw [if_neg hws] at hx
      cases hl : lookupHdr idx walk with
      | none => rfl
      | some e =>
        rw [hl] at hx
        simp only [List.mem_cons, not_or] at hx
        rw [ih (setFailedChild idx walk) e.prev stop x
            (by rw [walkChain_setFailedChild]; exact hx.2)]
        rw [lookupHdr_setFailedChild, if_neg hx.1]

theorem markFailedChain_marks (fuel : Nat) : ∀ (idx : HeaderIndex) (walk stop x : Nat),
    x ∈ walkChain fuel idx walk stop →
    ∃ e e2, lookupHdr idx x = some e ∧
      lookupHdr (markFailedChain fuel idx walk stop) x = some e2 ∧
      e2.failedChild = true := by
  induction fuel with
  | zero => intro idx walk stop x hx; exact absurd hx (by simp [walkChain])
  | succ f ih =>
    intro idx walk stop x hx
    unfold walkChain at hx
    unfold markFailedChain
    by_cases hws : walk = stop
    · rw [if_pos hws] at hx
      exact absurd hx (by simp)
    · rw [if_neg hws] at hx
      rw [if_neg hws]
      cases hl : lookupHdr idx walk with
      | none => rw [hl] at hx; exact absurd hx (by simp)
      | some e =>
        rw [hl] at hx
        rw [List.mem_cons] at hx
        rcases hx with hx | hx
        · -- x is the head of the walk
          rw [hx]
          by_cases hx2 : walk ∈ walkChain f (setFailedChild idx walk) e.prev stop
          · obtain ⟨e1, e2, he1, he2, hfc⟩ := ih (setFailedChild idx walk) e.prev stop walk hx2
            exact ⟨e, e2, hl, he2, hfc⟩
          · rw [markFailedChain_untouched f (setFailedChild idx walk) e.prev stop walk hx2]
            refine ⟨e, { e with failedChild := true }, hl, ?_, rfl⟩
            rw [lookupHdr_setFailedChild]
            simp [hl]
        · -- x is further down the walk
          rw [← walkChain_setFailedChild f idx walk e.prev stop] at hx
          obtain ⟨e1, e2, he1, he2, hfc⟩ := ih (setFailedChild idx walk) e.prev stop x hx
          rw [lookupHdr_setFailedChild] at he1
          by_cases hxw : x = walk
          · rw [if_pos hxw, hxw, hl] at he1
            refine ⟨e, e2, ?_, he2, hfc⟩
            rw [hxw, hl]
          · rw [if_neg hxw] at he1
            exact ⟨e1, e2, he1, he2, hfc⟩

theorem lookupPairs_eq_none_iff (l : List (Nat × HdrEntry)) (h : Nat) :
    lookupPairs l h = none ↔ h ∉ l.map Prod.fst := by
  induction l with
  | nil => simp [lookupPairs]
  | cons p rest ih =>
    by_cases hp : p.1 = h
    · simp [lookupPairs, hp]
    · simp only [lookupPairs, if_neg hp, List.map_cons, List.mem_cons, not_or]
      constructor
      · intro hnone
        exact ⟨fun hc => hp hc.symm, ih.mp hnone⟩
      · intro hmem
        exact ih.mpr hmem.2

theorem lookupHdr_eq_none_iff (idx : HeaderIndex) (h : Nat) :
    lookupHdr idx h = none ↔ h ∉ idx.entries.map Prod.fst := by
  unfold lookupHdr
  exact lookupPairs_eq_none_iff idx.entries h

/-- C8: for a fresh, well-formed header (hash unknown, stateless and
contextual checks passing), `AcceptBlockHeader`: (i) fails with
`prev-blk-not-found` when the predecessor is absent from the block index,
leaving the index unchanged so the caller can request the predecessor;
(ii) fails with `bad-prevblk` when the predecessor carries
`BLOCK_FAILED_MASK`, leaving the index unchanged; (iii) when the
predecessor is unmarked but a `g_failed_blocks` entry is its ancestor,
fails with `bad-prevblk` after marking every block on the chain from the
predecessor down to (excluding) the failed ancestor `BLOCK_FAILED_CHILD`;
in every case no new entry is inserted. -/
theorem C8_header_prev_errors (idx : HeaderIndex) (hash prevHash : Nat)
    (hnew : lookupHdr idx hash = none) :
    (lookupHdr idx prevHash = none →
      AcceptBlockHeaderModel idx hash prevHash true true
        = HdrResult.err "prev-blk-not-found" idx) ∧
    (∀ pe, lookupHdr idx prevHash = some pe → hdrFailed pe = true →
      AcceptBlockHeaderModel idx hash prevHash true true
        = HdrResult.err "bad-prevblk" idx) ∧
    (∀ pe fh, lookupHdr idx prevHash = some pe → hdrFailed pe = false →
      pe.validity < BLOCK_VALID_SCRIPTS →
      findFailedAncestor idx prevHash = some fh →
      ∃ idx2, AcceptBlockHeaderModel idx hash prevHash true true
          = HdrResult.err "bad-prevblk" idx2 ∧
        idx2.entries.map Prod.fst = idx.entries.map Prod.fst ∧
        lookupHdr idx2 hash = none ∧
        ∀ x ∈ walkChain (idx.entries.length + 1) idx prevHash fh,
          ∃ e e2, lookupHdr idx x = some e ∧ lookupHdr idx2 x = some e2 ∧
            e2.failedChild = true) := by
  refine ⟨?_, ?_, ?_⟩
  · intro hprev
    unfold AcceptBlockHeaderModel
    rw [hnew, hprev]
    simp
  · intro pe hprev hfail
    unfold AcceptBlockHeaderModel
    rw [hnew, hprev]
    simp [hfail]
  · intro pe fh hprev hfail hval hanc
    unfold AcceptBlockHeaderModel
    rw [hnew, hprev]
    simp only [hfail, hanc, hval, Bool.not_true, Bool.false_eq_true, if_false,
      if_true, Bool.not_false, if_pos]
    refine ⟨markFailedChain (idx.entries.length + 1) idx prevHash fh, ?_, ?_, ?_, ?_⟩
    · simp [hfail, hval]
    · exact markFailedChain_keys _ idx prevHash fh
    · rw [lookupHdr_eq_none_iff, markFailedChain_keys _ idx prevHash fh]
      exact (lookupHdr_eq_none_iff idx hash).mp hnew
    · intro x hx
      exact markFailedChain_marks _ idx prevHash fh x hx

/-- Concrete index for the C8 witness: genesis (hash 5, fully valid), a
failed block A (hash 10, `FAILED_VALID`, in `g_failed_blocks`) and its
unmarked child B (hash 11). -/
def c8Idx : HeaderIndex :=
  ⟨[(5, ⟨0, 0, false, false, 5⟩), (10, ⟨5, 1, true, false, 2⟩),
    (11, ⟨10, 2, false, false, 2⟩)], [10]⟩

/-- Closed witness for C8: on the concrete index, a header with unknown
predecessor 999 fails with `prev-blk-not-found`; a header extending the
failed block A fails with `bad-prevblk` with the index unchanged; a header
extending B (whose ancestor A is failed) fails with `bad-prevblk` and the
walk `[B]` is marked `FAILED_CHILD` with no entry inserted. -/
theorem C8_header_prev_errors_witness :
    AcceptBlockHeaderModel c8Idx 200 999 true true
      = HdrResult.err "prev-blk-not-found" c8Idx ∧
    AcceptBlockHeaderModel c8Idx 201 10 true true
      = HdrResult.err "bad-prevblk" c8Idx ∧
    (∃ idx2, AcceptBlockHeaderModel c8Idx 202 11 true true
        = HdrResult.err "bad-prevblk" idx2 ∧
      idx2.entries.map Prod.fst = c8Idx.entries.map Prod.fst ∧
      lookupHdr idx2 202 = none ∧
      ∀ x ∈ walkChain (c8Idx.entries.length + 1) c8Idx 11 10,
        ∃ e e2, lookupHdr c8Idx x = some e ∧ lookupHdr idx2 x = some e2 ∧
          e2.failedChild = true) := by
  refine ⟨?_, ?_, ?_⟩
  · exact (C8_header_prev_errors c8Idx 200 999 (by decide)).1 (by decide)
  · exact (C8_header_prev_errors c8Idx 201 10 (by decide)).2.1
      ⟨5, 1, true, false, 2⟩ (by decide) (by decide)
  · exact (C8_header_prev_errors c8Idx 202 11 (by decide)).2.2
      ⟨10, 2, false, false, 2⟩ 10 (by decide) (by decide) (by decide) (by decide)

/-! ### Fork choice and the candidate set (validation.cpp:
`AddToBlockIndex` 4132-4163, `ReceivedBlockTransactions` 4166-4216,
`PruneBlockIndexCandidates` 3808-3817, `FindMostWorkChain` 3753-3805,
`ActivateBestChainStep`, `DisconnectTip`, `InvalidateBlock` 4038-4096)

The chain controller's observable state is a block index (association list
from hash to entry), the candidate set, the active tip, the
`nBlockSequenceId` counter, `mapBlocksUnlinked` and `g_failed_blocks`.
Each public operation becomes a state transformer; `runOps` folds an
operation sequence, so "at every observable state" becomes "after every
operation sequence". -/

/-- A block-index entry with the fields fork choice consults. -/
structure BIEntry where
  prev : Option Nat
  height : Nat
  chainWork : Nat
  nTx : Nat
  nChainTx : Nat
  seqId : Nat
  hasData : Bool
  validTx : Bool
  failedValid : Bool
  failedChild : Bool
deriving DecidableEq

/-- Association-list lookup for block-index entries. -/
def lookupA : List (Nat × BIEntry) → Nat → Option BIEntry
  | [], _ => none
  | p :: rest, h => if p.1 = h then some p.2 else lookupA rest h

/-- Update the entry stored under a hash. -/
def updA (l : List (Nat × BIEntry)) (h : Nat) (f : BIEntry → BIEntry) :
    List (Nat × BIEntry) :=
  l.map (fun p => if p.1 = h then (p.1, f p.2) else p)

/-- The chain controller's state. -/
structure NodeState where
  index : List (Nat × BIEntry)
  candidates : List Nat
  tipHash : Option Nat
  seqCounter : Nat
  unlinked : List (Nat × Nat)
  gFailed : List Nat
deriving DecidableEq

/-- `mapBlockIndex` lookup. -/
def lookupBI (s : NodeState) (h : Nat) : Option BIEntry :=
  lookupA s.index h

/-- `CBlockIndexWorkComparator` (without the pointer tie-break): `a` sorts
worse than `b` when it has less cumulative work, or equal work and a larger
(later) sequence id. -/
def worseThan (a b : BIEntry) : Bool :=
  decide (a.chainWork < b.chainWork) ||
    (decide (a.chainWork = b.chainWork) && decide (b.seqId < a.seqId))

/-- The active tip's entry. -/
def tipEntry (s : NodeState) : Option BIEntry :=
  match s.tipHash with
  | none => none
  | some t => lookupBI s t

/-- The candidate-insertion guard `chainActive.Tip() == nullptr ||
!setBlockIndexCandidates.value_comp()(pindex, chainActive.Tip())`. -/
def tipAllows (s : NodeState) (e : BIEntry) : Bool :=
  match tipEntry s with
  | none => true
  | some te => !(worseThan e te)

/-- `CBlockIndex::IsValid(BLOCK_VALID_TRANSACTIONS)`: the failure mask must
be clear and the validity level reached. -/
def isValidTx (e : BIEntry) : Bool :=
  !e.failedValid && !e.failedChild && e.validTx

/-- `AddToBlockIndex`: insert a fresh header-only entry — sequence id 0, no
data, height and cumulative work derived from the predecessor. Duplicate
hashes and unknown predecessors leave the state unchanged (header
acceptance rejects those before insertion). -/
def addHeaderOp (s : NodeState) (h : Nat) (prevHash : Option Nat) (proof : Nat) :
    NodeState :=
  if (lookupBI s h).isSome then s
  else
    match prevHash with
    | none =>
      { s with index := s.index ++
          [(h, ⟨none, 0, proof, 0, 0, 0, false, false, false, false⟩)] }
    | some p =>
      match lookupBI s p with
      | none => s
      | some pe =>
        { s with index := s.index ++
            [(h, ⟨some p, pe.height + 1, pe.chainWork + proof, 0, 0, 0,
              false, false, false, false⟩)] }

/-- The queue loop of `ReceivedBlockTransactions` (lines 4190-4208): pop a
block whose ancestors all have data, set its cumulative tx count, assign
the next sequence id from the strictly increasing counter, insert it into
the candidate set when not worse than the tip, and pull its now-linked
children out of `mapBlocksUnlinked` into the queue. -/
def rbtStep : Nat → NodeState → List Nat → NodeState
  | 0, s, _ => s
  | _ + 1, s, [] => s
  | f + 1, s, h :: rest =>
    match lookupBI s h with
    | none => rbtStep f s rest
    | some e =>
      let prevChainTx := match e.prev with
        | none => 0
        | some p =>
          match lookupBI s p with
          | none => 0
          | some pe => pe.nChainTx
      let e2 := { e with nChainTx := prevChainTx + e.nTx, seqId := s.seqCounter }
      let s2 := { s with
        index := updA s.index h (fun _ => e2),
        seqCounter := s.seqCounter + 1 }
      let s3 := if tipAllows s2 e2 then
          { s2 with candidates := s2.candidates ++ [h] } else s2
      let children := (s3.unlinked.filter (fun q => decide (q.1 = h))).map
        (fun q => q.2)
      let s4 := { s3 with unlinked := s3.unlinked.filter (fun q => !decide (q.1 = h)) }
      rbtStep f s4 (rest ++ children)

/-- `ReceivedBlockTransactions`: record the block's tx count and data
availability, raise `BLOCK_VALID_TRANSACTIONS`, and either process the
queue (when the predecessor's cumulative count is nonzero, or there is no
predecessor) or park the block in `mapBlocksUnlinked`. Blocks are nonempty
(`CheckBlock`) and the call happens only when data was absent. -/
def receiveDataOp (s : NodeState) (h : Nat) (nTx : Nat) : NodeState :=
  if nTx = 0 then s
  else
    match lookupBI s h with
    | none => s
    | some e =>
      if e.hasData then s
      else
        let e1 := { e with
          nTx := nTx,
          nChainTx := 0,
          hasData := true,
          validTx := true }
        let s1 := { s with index := updA s.index h (fun _ => e1) }
        let prevOk := match e.prev with
          | none => true
          | some p =>
            match lookupBI s1 p with
            | none => false
            | some pe => decide (pe.nChainTx ≠ 0)
        if prevOk then rbtStep (s1.unlinked.length + 1) s1 [h]
        else
          match e.prev with
          | none => s1
          | some p => { s1 with unlinked := s1.unlinked ++ [(p, h)] }

/-- `PruneBlockIndexCandidates`: delete every candidate worse than the tip. -/
def pruneCandidatesOp (s : NodeState) : NodeState :=
  { s with candidates := s.candidates.filter (fun c =>
      match lookupBI s c with
      | none => false
      | some e => tipAllows s e) }

/-- The lazy candidate pruning of `FindMostWorkChain` (failed-ancestor
branch): some set of candidates is erased and some blocks on the failed
chain are marked `BLOCK_FAILED_CHILD`. -/
def lazyPruneOp (s : NodeState) (erase mark : List Nat) : NodeState :=
  { s with
    candidates := s.candidates.filter (fun c => !(erase.any (fun x => decide (x = c)))),
    index := mark.foldl (fun l h => updA l h (fun e => { e with failedChild := true }))
      s.index }

/-- A successful `ActivateBestChainStep`: the tip moves to a candidate and
`PruneBlockIndexCandidates` runs. -/
def advanceTipOp (s : NodeState) (h : Nat) : NodeState :=
  if s.candidates.any (fun c => decide (c = h)) then
    pruneCandidatesOp { s with tipHash := some h }
  else s

/-- `DisconnectTip`: the tip moves to its predecessor. -/
def disconnectTipOp (s : NodeState) : NodeState :=
  match s.tipHash with
  | none => s
  | some t =>
    match lookupBI s t with
    | none => s
    | some te =>
      match te.prev with
      | none => s
      | some p => { s with tipHash := some p }

/-- Is `target` on the chain from `cur` back through predecessors
(`chainActive.Contains`)? -/
def inChainFrom (s : NodeState) : Nat → Nat → Nat → Bool
  | 0, cur, target => decide (cur = target)
  | f + 1, cur, target =>
    if cur = target then true
    else
      match lookupBI s cur with
      | none => false
      | some e =>
        match e.prev with
        | none => false
        | some p => inChainFrom s f p target

/-- The marking loop of `InvalidateBlock` (lines 4066-4071): walk from the
old tip down to (excluding) the invalidated block, setting
`BLOCK_FAILED_CHILD` and erasing from the candidate set. -/
def markWalkErase : Nat → NodeState → Nat → Nat → NodeState
  | 0, s, _, _ => s
  | f + 1, s, walk, stop =>
    if walk = stop then s
    else
      match lookupBI s walk with
      | none => s
      | some e =>
        let s2 := { s with
          index := updA s.index walk (fun e2 => { e2 with failedChild := true }),
          candidates := s.candidates.filter (fun c => !decide (c = walk)) }
        match e.prev with
        | none => s2
        | some p => markWalkErase f s2 p stop

/-- `InvalidateBlock`: disconnect the active chain down past the block when
it is on it, mark the disconnected stretch `FAILED_CHILD`, mark the block
itself `FAILED_VALID` (erasing it from the candidate set and recording it
in `g_failed_blocks`), then re-add to the candidate set every index entry
that is `IsValid(BLOCK_VALID_TRANSACTIONS)`, has `nChainTx != 0` and does
not sort worse than the new tip (lines 4085-4091). -/
def invalidateBlockOp (s : NodeState) (h : Nat) : NodeState :=
  match s.tipHash, lookupBI s h with
  | some t0, some he =>
    let inChain := inChainFrom s (s.index.length + 1) t0 h
    let s1 := if inChain then { s with tipHash := he.prev } else s
    let s2 := if inChain then markWalkErase (s1.index.length + 1) s1 t0 h else s1
    let s3 := { s2 with
      index := updA s2.index h (fun e => { e with failedValid := true }),
      candidates := s2.candidates.filter (fun c => !decide (c = h)),
      gFailed := s2.gFailed ++ [h] }
    { s3 with candidates := s3.candidates ++
        ((s3.index.map Prod.fst).filter (fun k =>
          match lookupBI s3 k with
          | none => false
          | some e => isValidTx e && decide (e.nChainTx ≠ 0) && tipAllows s3 e)) }
  | _, _ => s

/-- One observable chain-controller operation. -/
inductive NodeOp where
  | addHeader : Nat → Option Nat → Nat → NodeOp
  | receiveData : Nat → Nat → NodeOp
  | pruneCands : NodeOp
  | lazyPrune : List Nat → List Nat → NodeOp
  | advanceTip : Nat → NodeOp
  | disconnectTip : NodeOp
  | invalidateBlock : Nat → NodeOp
deriving DecidableEq

/-- Apply one operation. -/
def stepOp (s : NodeState) : NodeOp → NodeState
  | NodeOp.addHeader h p w => addHeaderOp s h p w
  | NodeOp.receiveData h n => receiveDataOp s h n
  | NodeOp.pruneCands => pruneCandidatesOp s
  | NodeOp.lazyPrune e m => lazyPruneOp s e m
  | NodeOp.advanceTip h => advanceTipOp s h
  | NodeOp.disconnectTip => disconnectTipOp s
  | NodeOp.invalidateBlock h => invalidateBlockOp s h

/-- Run an operation sequence. -/
def runOps (s : NodeState) (ops : List NodeOp) : NodeState :=
  ops.foldl stepOp s

/-- The node state just after the genesis block is connected. -/
def initState (g gwork : Nat) : NodeState :=
  { index := [(g, ⟨none, 0, gwork, 1, 1, 1, true, true, false, false⟩)],
    candidates := [g], tipHash := some g, seqCounter := 2,
    unlinked := [], gFailed := [] }

/-- The active tip, when set, resolves in the index. -/
def TipInv (s : NodeState) : Prop :=
  ∀ t, s.tipHash = some t → ∃ te, lookupBI s t = some te

/-- Predecessor links resolve and cumulative work is monotone along them
(`nChainWork = prev.nChainWork + GetBlockProof`). -/
def WorkInv (s : NodeState) : Prop :=
  ∀ h e p, lookupBI s h = some e → e.prev = some p →
    ∃ pe, lookupBI s p = some pe ∧ pe.chainWork ≤ e.chainWork

/-- `mapBlocksUnlinked` holds data-bearing, transaction-valid blocks keyed
by their (present) predecessor. -/
def UnlinkedInv (s : NodeState) : Prop :=
  ∀ pc ∈ s.unlinked, ∃ e, lookupBI s pc.2 = some e ∧ e.hasData = true ∧
    e.validTx = true ∧ e.nTx ≠ 0 ∧ e.prev = some pc.1

/-- The candidate-set invariant the code maintains: every candidate has
`BLOCK_VALID_TRANSACTIONS` raised, all-ancestor data (`nChainTx != 0`) and
cumulative work at least the active tip's. -/
def CandInv (s : NodeState) : Prop :=
  ∀ c ∈ s.candidates, ∃ e, lookupBI s c = some e ∧ e.validTx = true ∧
    e.nChainTx ≠ 0 ∧
    ∀ t te, s.tipHash = some t → lookupBI s t = some te →
      te.chainWork ≤ e.chainWork

/-- The sequence-id discipline: ids are below the strictly increasing
counter, positive exactly when all-ancestor data is recorded, and distinct
when positive; `nChainTx != 0` requires own data and the predecessor's
cumulative count. -/
def SeqInv (s : NodeState) : Prop :=
  1 ≤ s.seqCounter ∧
  (∀ h e, lookupBI s h = some e →
    e.seqId < s.seqCounter ∧ (e.seqId ≠ 0 ↔ e.nChainTx ≠ 0) ∧
    (e.nChainTx ≠ 0 → e.hasData = true ∧ e.validTx = true ∧ e.nTx ≠ 0 ∧
      (e.prev = none ∨ ∃ p pe, e.prev = some p ∧ lookupBI s p = some pe ∧
        pe.nChainTx ≠ 0))) ∧
  (∀ h1 e1 h2 e2, lookupBI s h1 = some e1 → lookupBI s h2 = some e2 →
    h1 ≠ h2 → e1.seqId ≠ 0 → e1.seqId ≠ e2.seqId)

/-- The conjunction of all maintained invariants. -/
def Inv (s : NodeState) : Prop :=
  TipInv s ∧ WorkInv s ∧ UnlinkedInv s ∧ CandInv s ∧ SeqInv s

theorem lookupA_append (l : List (Nat × BIEntry)) (h : Nat) (e : BIEntry) :
    ∀ x, lookupA (l ++ [(h, e)]) x =
      match lookupA l x with
      | some v => some v
      | none => if h = x then some e else none := by
  induction l with
  | nil => intro x; simp [lookupA]
  | cons p rest ih =>
    intro x
    by_cases hp : p.1 = x <;> simp [lookupA, hp, ih]

theorem lookupA_append_fresh (l : List (Nat × BIEntry)) (h : Nat) (e : BIEntry)
    (hfresh : lookupA l h = none) (x : Nat) :
    lookupA (l ++ [(h, e)]) x = if x = h then some e else lookupA l x := by
  rw [lookupA_append]
  by_cases hx : x = h
  · simp [hx, hfresh]
  · rw [if_neg hx]
    cases hlx : lookupA l x with
    | none =>
      have hhx : ¬h = x := fun hc => hx hc.symm
      simp [hhx]
    | some v => rfl

theorem lookupA_updA (l : List (Nat × BIEntry)) (h : Nat) (f : BIEntry → BIEntry) :
    ∀ x, lookupA (updA l h f) x =
      if x = h then (lookupA l x).map f else lookupA l x := by
  induction l with
  | nil => intro x; by_cases hx : x = h <;> simp [updA, lookupA, hx]
  | cons p rest ih =>
    intro x
    obtain ⟨k, e⟩ := p
    by_cases hkh : k = h <;> by_cases hkx : k = x
    · have hxh : x = h := by rw [← hkx, hkh]
      rw [if_pos hxh]
      simp only [updA, List.map_cons] at *
      simp only [if_pos hkh]
      simp [lookupA, hkx]
    · have hxh : ¬x = h := by
        intro hc
        exact hkx (by rw [hkh, ← hc])
      rw [if_neg hxh]
      simp only [updA, List.map_cons] at *
      simp only [if_pos hkh]
      simp only [lookupA, if_neg hkx]
      rw [ih, if_neg hxh]
    · have hxh : ¬x = h := by
        intro hc
        exact hkh (by rw [hkx, hc])
      rw [if_neg hxh]
      simp only [updA, List.map_cons] at *
      simp only [if_neg hkh]
      simp [lookupA, hkx]
    · simp only [updA, List.map_cons] at *
      simp only [if_neg hkh]
      by_cases hxh : x = h
      · rw [if_pos hxh]
        simp only [lookupA, if_neg hkx]
        rw [ih, if_pos hxh]
      · rw [if_neg hxh]
        simp only [lookupA, if_neg hkx]
        rw [ih, if_neg hxh]

/-- Fields of an entry untouched by failure-flag marking. -/
def coreEq (a b : BIEntry) : Prop :=
  b.prev = a.prev ∧ b.height = a.height ∧ b.chainWork = a.chainWork ∧
  b.nTx = a.nTx ∧ b.nChainTx = a.nChainTx ∧ b.seqId = a.seqId ∧
  b.hasData = a.hasData ∧ b.validTx = a.validTx

theorem coreEq_refl (a : BIEntry) : coreEq a a :=
  ⟨rfl, rfl, rfl, rfl, rfl, rfl, rfl, rfl⟩

theorem coreEq_trans {a b c : BIEntry} (h1 : coreEq a b) (h2 : coreEq b c) :
    coreEq a c := by
  obtain ⟨p1, h1a, w1, t1, c1, s1, d1, v1⟩ := h1
  obtain ⟨p2, h2a, w2, t2, c2, s2, d2, v2⟩ := h2
  exact ⟨p2.trans p1, h2a.trans h1a, w2.trans w1, t2.trans t1, c2.trans c1,
    s2.trans s1, d2.trans d1, v2.trans v1⟩

/-- A state whose index is pointwise core-equal to another's, with the same
candidates, tip, unlinked map and counter, satisfies the same invariants. -/
theorem Inv_of_coreEq (s s2 : NodeState)
    (hsome : ∀ x e, lookupBI s x = some e →
      ∃ e2, lookupBI s2 x = some e2 ∧ coreEq e e2)
    (hsome2 : ∀ x e2, lookupBI s2 x = some e2 →
      ∃ e, lookupBI s x = some e ∧ coreEq e e2)
    (hc : s2.candidates = s.candidates) (ht : s2.tipHash = s.tipHash)
    (hu : s2.unlinked = s.unlinked) (hsq : s2.seqCounter = s.seqCounter)
    (hinv : Inv s) : Inv s2 := by
  have hTip := hinv.1
  have hWork := hinv.2.1
  have hUnl := hinv.2.2.1
  have hCand := hinv.2.2.2.1
  have hSq1 := hinv.2.2.2.2.1
  have hSq2 := hinv.2.2.2.2.2.1
  have hSq3 := hinv.2.2.2.2.2.2
  refine ⟨?_, ?_, ?_, ?_, ?_, ?_, ?_⟩
  · intro t hts
    rw [ht] at hts
    obtain ⟨te, hte⟩ := hTip t hts
    obtain ⟨te2, hte2, _⟩ := hsome t te hte
    exact ⟨te2, hte2⟩
  · intro h e2 p hl2 hp2
    obtain ⟨e, hl, hcore⟩ := hsome2 h e2 hl2
    obtain ⟨pe, hpl, hpw⟩ := hWork h e p hl (by rw [← hcore.1]; exact hp2)
    obtain ⟨pe2, hpl2, hpcore⟩ := hsome p pe hpl
    refine ⟨pe2, hpl2, ?_⟩
    rw [hpcore.2.2.1, hcore.2.2.1]
    exact hpw
  · intro pc hpc
    rw [hu] at hpc
    obtain ⟨e, hl, hd, hv, hn, hp⟩ := hUnl pc hpc
    obtain ⟨e2, hl2, hcore⟩ := hsome pc.2 e hl
    exact ⟨e2, hl2, by rw [hcore.2.2.2.2.2.2.1]; exact hd,
      by rw [hcore.2.2.2.2.2.2.2]; exact hv,
      by rw [hcore.2.2.2.1]; exact hn,
      by rw [hcore.1]; exact hp⟩
  · intro c hcm
    rw [hc] at hcm
    obtain ⟨e, hl, hv, hn, hw⟩ := hCand c hcm
    obtain ⟨e2, hl2, hcore⟩ := hsome c e hl
    refine ⟨e2, hl2, by rw [hcore.2.2.2.2.2.2.2]; exact hv,
      by rw [hcore.2.2.2.2.1]; exact hn, ?_⟩
    intro t te2 hts hte2
    rw [ht] at hts
    obtain ⟨te, hte, htcore⟩ := hsome2 t te2 hte2
    rw [htcore.2.2.1, hcore.2.2.1]
    exact hw t te hts hte
  · rw [hsq]
    exact hSq1
  · intro h e2 hl2
    obtain ⟨e, hl, hcore⟩ := hsome2 h e2 hl2
    obtain ⟨hlt, hiff, hchain⟩ := hSq2 h e hl
    refine ⟨by rw [hcore.2.2.2.2.2.1, hsq]; exact hlt,
      by rw [hcore.2.2.2.2.2.1, hcore.2.2.2.2.1]; exact hiff, ?_⟩
    intro hn2
    rw [hcore.2.2.2.2.1] at hn2
    obtain ⟨hd, hv, hnt, hrest⟩ := hchain hn2
    refine ⟨by rw [hcore.2.2.2.2.2.2.1]; exact hd,
      by rw [hcore.2.2.2.2.2.2.2]; exact hv,
      by rw [hcore.2.2.2.1]; exact hnt, ?_⟩
    rcases hrest with hnone | ⟨p, pe, hp, hpl, hpn⟩
    · exact Or.inl (by rw [hcore.1]; exact hnone)
    · obtain ⟨pe2, hpl2, hpcore⟩ := hsome p pe hpl
      exact Or.inr ⟨p, pe2, by rw [hcore.1]; exact hp, hpl2,
        by rw [hpcore.2.2.2.2.1]; exact hpn⟩
  · intro h1 e1 h2 e2 hl1 hl2 hne hs1
    obtain ⟨f1, hf1, hc1⟩ := hsome2 h1 e1 hl1
    obtain ⟨f2, hf2, hc2⟩ := hsome2 h2 e2 hl2
    rw [hc1.2.2.2.2.2.1, hc2.2.2.2.2.2.1]
    exact hSq3 h1 f1 h2 f2 hf1 hf2 hne (by rw [← hc1.2.2.2.2.2.1]; exact hs1)

theorem Inv_updA_core (s : NodeState) (h0 : Nat) (f : BIEntry → BIEntry)
    (hf : ∀ e, coreEq e (f e)) (hinv : Inv s) :
    Inv { s with index := updA s.index h0 f } := by
  refine Inv_of_coreEq s _ ?_ ?_ rfl rfl rfl rfl hinv
  · intro x e hl
    have hl2 : lookupA s.index x = some e := hl
    by_cases hx : x = h0
    · refine ⟨f e, ?_, hf e⟩
      show lookupA (updA s.index h0 f) x = some (f e)
      rw [lookupA_updA, if_pos hx, hl2]
      rfl
    · refine ⟨e, ?_, coreEq_refl e⟩
      show lookupA (updA s.index h0 f) x = some e
      rw [lookupA_updA, if_neg hx]
      exact hl2
  · intro x e2 hl2
    have hl3 : lookupA (updA s.index h0 f) x = some e2 := hl2
    rw [lookupA_updA] at hl3
    by_cases hx : x = h0
    · rw [if_pos hx] at hl3
      cases hl4 : lookupA s.index x with
      | none => rw [hl4] at hl3; exact absurd hl3 (by simp)
      | some e =>
        rw [hl4] at hl3
        simp only [Option.map_some'] at hl3
        refine ⟨e, hl4, ?_⟩
        rw [← Option.some_inj.mp hl3]
        exact hf e
    · rw [if_neg hx] at hl3
      exact ⟨e2, hl3, coreEq_refl e2⟩

theorem Inv_filterCands (s : NodeState) (p : Nat → Bool) (hinv : Inv s) :
    Inv { s with candidates := s.candidates.filter p } := by
  obtain ⟨h1, h2, h3, h4, h5⟩ := hinv
  refine ⟨h1, h2, h3, ?_, h5⟩
  intro c hc
  exact h4 c (List.mem_filter.mp hc).1

theorem Inv_filterUnlinked (s : NodeState) (p : Nat × Nat → Bool) (hinv : Inv s) :
    Inv { s with unlinked := s.unlinked.filter p } := by
  obtain ⟨h1, h2, h3, h4, h5⟩ := hinv
  refine ⟨h1, h2, ?_, h4, h5⟩
  intro pc hpc
  exact h3 pc (List.mem_filter.mp hpc).1

theorem Inv_setGFailed (s : NodeState) (g : List Nat) (hinv : Inv s) :
    Inv { s with gFailed := g } := hinv

theorem Inv_appendCands (s : NodeState) (nw : List Nat)
    (hnew : ∀ c ∈ nw, ∃ e, lookupBI s c = some e ∧ e.validTx = true ∧
      e.nChainTx ≠ 0 ∧ ∀ t te, s.tipHash = some t → lookupBI s t = some te →
        te.chainWork ≤ e.chainWork)
    (hinv : Inv s) : Inv { s with candidates := s.candidates ++ nw } := by
  obtain ⟨h1, h2, h3, h4, h5⟩ := hinv
  refine ⟨h1, h2, h3, ?_, h5⟩
  intro c hc
  rcases List.mem_append.mp hc with hc | hc
  · exact h4 c hc
  · exact hnew c hc

theorem tipAllows_work (s : NodeState) (e : BIEntry) (h : tipAllows s e = true) :
    ∀ t te, s.tipHash = some t → lookupBI s t = some te →
      te.chainWork ≤ e.chainWork := by
  intro t te ht hte
  unfold tipAllows tipEntry at h
  simp only [ht] at h
  simp only [hte] at h
  have h2 : worseThan e te = false := by
    cases hw : worseThan e te
    · rfl
    · rw [hw] at h; exact absurd h (by simp)
  unfold worseThan at h2
  simp only [Bool.or_eq_false_iff, decide_eq_false_iff_not] at h2
  have h3 := h2.1
  omega

theorem Inv_markFold (mark : List Nat) : ∀ s : NodeState, Inv s →
    Inv { s with index := mark.foldl (fun l h => updA l h (fun e => { e with failedChild := true })) s.index } := by
  induction mark with
  | nil => intro s h; exact h
  | cons m mark ih =>
    intro s h
    have h2 := Inv_updA_core s m (fun e => { e with failedChild := true })
      (fun e => ⟨rfl, rfl, rfl, rfl, rfl, rfl, rfl, rfl⟩) h
    exact ih { s with index := updA s.index m (fun e => { e with failedChild := true }) } h2

/-! Per-operation invariant preservation -/

theorem addHeaderOp_inv (s : NodeState) (h : Nat) (prevHash : Option Nat)
    (proof : Nat) (hinv : Inv s) : Inv (addHeaderOp s h prevHash proof) := by
  unfold addHeaderOp
  by_cases hl : (lookupBI s h).isSome = true
  case pos =>
    rw [if_pos hl]
    exact hinv
  case neg =>
    rw [if_neg hl]
    have hfresh : lookupA s.index h = none := by
      cases hl2 : lookupBI s h with
      | none => exact hl2
      | some v => rw [hl2] at hl; exact absurd rfl hl
    -- common reasoning for inserting a fresh entry with seqId 0, nChainTx 0
    have main : ∀ (ne : BIEntry), ne.seqId = 0 → ne.nChainTx = 0 →
        (∀ p, ne.prev = some p → ∃ pe, lookupA s.index p = some pe ∧
          pe.chainWork ≤ ne.chainWork) →
        Inv { s with index := s.index ++ [(h, ne)] } := by
      intro ne hseq hchain hprev
      have h1 := hinv.1
      have h2 := hinv.2.1
      have h3 := hinv.2.2.1
      have h4 := hinv.2.2.2.1
      have h51 := hinv.2.2.2.2.1
      have h52 := hinv.2.2.2.2.2.1
      have h53 := hinv.2.2.2.2.2.2
      have hlook : ∀ x, lookupBI { s with index := s.index ++ [(h, ne)] } x
          = if x = h then some ne else lookupBI s x := by
        intro x
        exact lookupA_append_fresh s.index h ne hfresh x
      refine ⟨?_, ?_, ?_, ?_, ?_, ?_, ?_⟩
      · intro t ht
        obtain ⟨te, hte⟩ := h1 t ht
        refine ⟨if t = h then ne else te, ?_⟩
        rw [hlook]
        by_cases hth : t = h
        · rw [if_pos hth, if_pos hth]
        · rw [if_neg hth, if_neg hth]
          exact hte
      · intro x e p hx hp
        rw [hlook] at hx
        by_cases hxh : x = h
        · rw [if_pos hxh, Option.some_inj] at hx
          rw [← hx] at hp
          obtain ⟨pe, hpe, hpw⟩ := hprev p hp
          have hph : ¬p = h := by
            intro hc
            rw [hc] at hpe
            rw [hfresh] at hpe
            exact absurd hpe (by simp)
          refine ⟨pe, ?_, by rw [← hx]; exact hpw⟩
          rw [hlook, if_neg hph]
          exact hpe
        · rw [if_neg hxh] at hx
          obtain ⟨pe, hpe, hpw⟩ := h2 x e p hx hp
          have hph : ¬p = h := by
            intro hc
            rw [hc] at hpe
            have : lookupA s.index h = some pe := hpe
            rw [hfresh] at this
            exact absurd this (by simp)
          refine ⟨pe, ?_, hpw⟩
          rw [hlook, if_neg hph]
          exact hpe
      · intro pc hpc
        obtain ⟨e, he, hd, hv, hn, hp⟩ := h3 pc hpc
        have hch : ¬pc.2 = h := by
          intro hc
          rw [hc] at he
          have : lookupA s.index h = some e := he
          rw [hfresh] at this
          exact absurd this (by simp)
        refine ⟨e, ?_, hd, hv, hn, hp⟩
        rw [hlook, if_neg hch]
        exact he
      · intro c hcm
        obtain ⟨e, he, hv, hn, hw⟩ := h4 c hcm
        have hch : ¬c = h := by
          intro hc
          rw [hc] at he
          have : lookupA s.index h = some e := he
          rw [hfresh] at this
          exact absurd this (by simp)
        refine ⟨e, by rw [hlook, if_neg hch]; exact he, hv, hn, ?_⟩
        intro t te ht hte
        rw [hlook] at hte
        by_cases hth : t = h
        · obtain ⟨te0, hte0⟩ := h1 t ht
          rw [hth] at hte0
          have : lookupA s.index h = some te0 := hte0
          rw [hfresh] at this
          exact absurd this (by simp)
        · rw [if_neg hth] at hte
          exact hw t te ht hte
      · exact h51
      · intro x e hx
        rw [hlook] at hx
        by_cases hxh : x = h
        · rw [if_pos hxh, Option.some_inj] at hx
          rw [← hx]
          refine ⟨by rw [hseq]; exact Nat.lt_of_lt_of_le Nat.zero_lt_one h51,
            by rw [hseq, hchain], ?_⟩
          intro hcon
          rw [hchain] at hcon
          exact absurd rfl hcon
        · rw [if_neg hxh] at hx
          obtain ⟨ha, hb, hc2⟩ := h52 x e hx
          refine ⟨ha, hb, ?_⟩
          intro hn
          obtain ⟨hd, hv, hnt, hrest⟩ := hc2 hn
          refine ⟨hd, hv, hnt, ?_⟩
          rcases hrest with hnone | ⟨p, pe, hp, hpl, hpn⟩
          · exact Or.inl hnone
          · have hph : ¬p = h := by
              intro hcp
              rw [hcp] at hpl
              have : lookupA s.index h = some pe := hpl
              rw [hfresh] at this
              exact absurd this (by simp)
            exact Or.inr ⟨p, pe, hp, by rw [hlook, if_neg hph]; exact hpl, hpn⟩
      · intro x1 e1 x2 e2 hx1 hx2 hne hs1
        rw [hlook] at hx1 hx2
        by_cases hx1h : x1 = h
        · rw [if_pos hx1h, Option.some_inj] at hx1
          rw [← hx1, hseq] at hs1
          exact absurd rfl hs1
        · rw [if_neg hx1h] at hx1
          by_cases hx2h : x2 = h
          · rw [if_pos hx2h, Option.some_inj] at hx2
            rw [← hx2, hseq]
            obtain ⟨_, hb, _⟩ := h52 x1 e1 hx1
            exact hs1
          · rw [if_neg hx2h] at hx2
            exact h53 x1 e1 x2 e2 hx1 hx2 hne hs1
    split
    · apply main
      · rfl
      · rfl
      · intro p hp
        exact absurd hp (by simp)
    · rename_i p
      split
      · exact hinv
      · rename_i pe hpl
        apply main
        · rfl
        · rfl
        · intro p2 hp2
          simp only [Option.some_inj] at hp2
          rw [← hp2]
          exact ⟨pe, hpl, Nat.le_add_right _ _⟩

theorem pruneCandidatesOp_inv (s : NodeState) (hinv : Inv s) :
    Inv (pruneCandidatesOp s) :=
  Inv_filterCands s _ hinv

theorem lazyPruneOp_inv (s : NodeState) (erase mark : List Nat) (hinv : Inv s) :
    Inv (lazyPruneOp s erase mark) := by
  have h1 := Inv_filterCands s
    (fun c => !(erase.any (fun x => decide (x = c)))) hinv
  exact Inv_markFold mark _ h1

theorem advanceTipOp_inv (s : NodeState) (h : Nat) (hinv : Inv s) :
    Inv (advanceTipOp s h) := by
  unfold advanceTipOp
  by_cases hmem : s.candidates.any (fun c => decide (c = h)) = true
  case neg =>
    rw [if_neg hmem]
    exact hinv
  case pos =>
    rw [if_pos hmem]
    have hmem2 : h ∈ s.candidates := by
      rw [List.any_eq_true] at hmem
      obtain ⟨c, hc, hch⟩ := hmem
      rw [decide_eq_true_eq] at hch
      rw [← hch]
      exact hc
    obtain ⟨h1, h2, h3, h4, h5⟩ := hinv
    obtain ⟨he, hle, hv, hn, _⟩ := h4 h hmem2
    unfold pruneCandidatesOp
    refine ⟨?_, h2, h3, ?_, h5⟩
    · intro t ht
      have ht2 : (some h : Option Nat) = some t := ht
      rw [Option.some_inj] at ht2
      rw [← ht2]
      exact ⟨he, hle⟩
    · intro c hcm
      simp only [List.mem_filter] at hcm
      obtain ⟨hcand, hpred⟩ := hcm
      obtain ⟨e, hel, hev, hen, _⟩ := h4 c hcand
      refine ⟨e, hel, hev, hen, ?_⟩
      intro t te ht hte
      have hel2 : lookupBI { s with tipHash := some h } c = some e := hel
      simp only [hel2] at hpred
      have hta : tipAllows { s with tipHash := some h } e = true := hpred
      exact tipAllows_work _ e hta t te ht hte

theorem disconnectTipOp_inv (s : NodeState) (hinv : Inv s) :
    Inv (disconnectTipOp s) := by
  unfold disconnectTipOp
  split
  · exact hinv
  · rename_i t ht
    split
    · exact hinv
    · rename_i te htl
      split
      · exact hinv
      · rename_i p hp
        obtain ⟨h1, h2, h3, h4, h5⟩ := hinv
        obtain ⟨pe, hpl, hpw⟩ := h2 t te p htl hp
        refine ⟨?_, h2, h3, ?_, h5⟩
        · intro t2 ht2
          have ht3 : (some p : Option Nat) = some t2 := ht2
          rw [Option.some_inj] at ht3
          rw [← ht3]
          exact ⟨pe, hpl⟩
        · intro c hcm
          obtain ⟨e, hel, hev, hen, hw⟩ := h4 c hcm
          refine ⟨e, hel, hev, hen, ?_⟩
          intro t2 te2 ht2 hte2
          have ht3 : (some p : Option Nat) = some t2 := ht2
          rw [Option.some_inj] at ht3
          have hte3 : lookupBI s p = some te2 := by
            rw [ht3]
            exact hte2
          have hpe : te2 = pe := by
            rw [hte3] at hpl
            exact Option.some_inj.mp hpl
          rw [hpe]
          exact le_trans hpw (hw t te ht htl)

theorem inChainFrom_work (s : NodeState) (hW : WorkInv s) :
    ∀ f cur target, inChainFrom s f cur target = true →
    ∀ ce te, lookupBI s cur = some ce → lookupBI s target = some te →
      te.chainWork ≤ ce.chainWork := by
  intro f
  induction f with
  | zero =>
    intro cur target hic ce te hce hte
    unfold inChainFrom at hic
    have hct : cur = target := of_decide_eq_true hic
    rw [hct] at hce
    rw [hce] at hte
    rw [Option.some_inj.mp hte]
  | succ f ih =>
    intro cur target hic ce te hce hte
    unfold inChainFrom at hic
    by_cases hct : cur = target
    · rw [hct] at hce
      rw [hce] at hte
      rw [Option.some_inj.mp hte]
    · rw [if_neg hct] at hic
      simp only [hce] at hic
      cases hp : ce.prev with
      | none => simp only [hp, Bool.false_eq_true] at hic
      | some p =>
        simp only [hp] at hic
        obtain ⟨pe, hpe, hpw⟩ := hW cur ce p hce hp
        exact le_trans (ih p target hic pe te hpe hte) hpw

theorem markWalkErase_inv (f : Nat) : ∀ (s : NodeState) (walk stop : Nat),
    Inv s → Inv (markWalkErase f s walk stop) := by
  induction f with
  | zero => intro s walk stop h; exact h
  | succ f ih =>
    intro s walk stop h
    unfold markWalkErase
    split
    · exact h
    · split
      · exact h
      · rename_i e he
        have hA := Inv_filterCands s (fun c => !decide (c = walk)) h
        have hB := Inv_updA_core
          { s with candidates := s.candidates.filter (fun c => !decide (c = walk)) }
          walk (fun e2 => { e2 with failedChild := true })
          (fun e2 => ⟨rfl, rfl, rfl, rfl, rfl, rfl, rfl, rfl⟩) hA
        split
        · exact hB
        · exact ih _ _ _ hB

theorem Inv_markValid (s2 : NodeState) (h : Nat) (hs2 : Inv s2) :
    Inv { s2 with
      index := updA s2.index h (fun e => { e with failedValid := true }),
      candidates := s2.candidates.filter (fun c => !decide (c = h)),
      gFailed := s2.gFailed ++ [h] } := by
  have hA := Inv_filterCands s2 (fun c => !decide (c = h)) hs2
  have hB := Inv_updA_core
    { s2 with candidates := s2.candidates.filter (fun c => !decide (c = h)) }
    h (fun e => { e with failedValid := true })
    (fun e => ⟨rfl, rfl, rfl, rfl, rfl, rfl, rfl, rfl⟩) hA
  exact Inv_setGFailed _ (s2.gFailed ++ [h]) hB

theorem Inv_readd (s3 : NodeState) (hs3 : Inv s3) :
    Inv { s3 with candidates := s3.candidates ++
      ((s3.index.map Prod.fst).filter (fun k =>
        match lookupBI s3 k with
        | none => false
        | some e => isValidTx e && decide (e.nChainTx ≠ 0) && tipAllows s3 e)) } := by
  apply Inv_appendCands
  · intro c hc
    rw [List.mem_filter] at hc
    obtain ⟨_, hpred⟩ := hc
    cases hlk : lookupBI s3 c with
    | none => simp only [hlk, Bool.false_eq_true] at hpred
    | some e =>
      simp only [hlk] at hpred
      rw [Bool.and_eq_true, Bool.and_eq_true] at hpred
      obtain ⟨⟨hvv, hnn⟩, hta⟩ := hpred
      refine ⟨e, rfl, ?_, of_decide_eq_true hnn, tipAllows_work s3 e hta⟩
      unfold isValidTx at hvv
      rw [Bool.and_eq_true, Bool.and_eq_true] at hvv
      exact hvv.2
  · exact hs3

theorem Inv_tipToPrev (s : NodeState) (t0 h : Nat) (he : BIEntry)
    (ht0 : s.tipHash = some t0) (hhe : lookupBI s h = some he)
    (hic : inChainFrom s (s.index.length + 1) t0 h = true)
    (hinv : Inv s) : Inv { s with tipHash := he.prev } := by
  obtain ⟨h1, h2, h3, h4, h5⟩ := hinv
  obtain ⟨t0e, ht0e⟩ := h1 t0 ht0
  have hwork : he.chainWork ≤ t0e.chainWork :=
    inChainFrom_work s h2 (s.index.length + 1) t0 h hic t0e he ht0e hhe
  refine ⟨?_, h2, h3, ?_, h5⟩
  · intro t ht
    have ht' : he.prev = some t := ht
    obtain ⟨pe, hpe, _⟩ := h2 h he t hhe ht'
    exact ⟨pe, hpe⟩
  · intro c hc
    obtain ⟨e, hel, hev, hen, hw⟩ := h4 c hc
    refine ⟨e, hel, hev, hen, ?_⟩
    intro t te ht hte
    have ht' : he.prev = some t := ht
    obtain ⟨pe, hpe, hpw⟩ := h2 h he t hhe ht'
    have hte' : lookupBI s t = some te := hte
    rw [hte'] at hpe
    rw [Option.some_inj.mp hpe]
    exact le_trans (le_trans hpw hwork) (hw t0 t0e ht0 ht0e)

theorem invalidateBlockOp_inv (s : NodeState) (h : Nat) (hinv : Inv s) :
    Inv (invalidateBlockOp s h) := by
  unfold invalidateBlockOp
  split
  · rename_i t0 he ht0 hhe
    cases hic : inChainFrom s (s.index.length + 1) t0 h
    case false =>
      exact Inv_readd _ (Inv_markValid s h hinv)
    case true =>
      have hs1 := Inv_tipToPrev s t0 h he ht0 hhe hic hinv
      have hs2 := markWalkErase_inv
        (({ s with tipHash := he.prev } : NodeState).index.length + 1)
        { s with tipHash := he.prev } t0 h hs1
      exact Inv_readd _ (Inv_markValid _ h hs2)
  · exact hinv

theorem rbtUpdate_inv (s : NodeState) (h : Nat) (e : BIEntry) (pct : Nat)
    (he : lookupBI s h = some e) (hd : e.hasData = true) (hv : e.validTx = true)
    (hn : e.nTx ≠ 0)
    (hpcl : e.prev = none ∨ ∃ p pe, e.prev = some p ∧ lookupBI s p = some pe ∧
      pe.nChainTx ≠ 0)
    (hinv : Inv s) :
    Inv { s with index := updA s.index h (fun _ => { e with nChainTx := pct + e.nTx, seqId := s.seqCounter }), seqCounter := s.seqCounter + 1 } := by
  have h1 := hinv.1
  have h2 := hinv.2.1
  have h3 := hinv.2.2.1
  have h4 := hinv.2.2.2.1
  have h51 := hinv.2.2.2.2.1
  have h52 := hinv.2.2.2.2.2.1
  have h53 := hinv.2.2.2.2.2.2
  have hlk : ∀ x, lookupBI { s with index := updA s.index h (fun _ => { e with nChainTx := pct + e.nTx, seqId := s.seqCounter }), seqCounter := s.seqCounter + 1 } x = if x = h then some { e with nChainTx := pct + e.nTx, seqId := s.seqCounter } else lookupBI s x := by
    intro x
    show lookupA (updA s.index h (fun _ => { e with nChainTx := pct + e.nTx, seqId := s.seqCounter })) x = _
    rw [lookupA_updA]
    by_cases hx : x = h
    · rw [if_pos hx, if_pos hx, hx]
      have he' : lookupA s.index h = some e := he
      rw [he']
      rfl
    · rw [if_neg hx, if_neg hx]
      rfl
  refine ⟨?_, ?_, ?_, ?_, ?_, ?_, ?_⟩
  · intro t ht
    have ht' : s.tipHash = some t := ht
    obtain ⟨te, hte⟩ := h1 t ht'
    by_cases hth : t = h
    · refine ⟨{ e with nChainTx := pct + e.nTx, seqId := s.seqCounter }, ?_⟩
      rw [hlk, if_pos hth]
    · refine ⟨te, ?_⟩
      rw [hlk, if_neg hth]
      exact hte
  · intro x ex p hx hp
    rw [hlk] at hx
    by_cases hxh : x = h
    · rw [if_pos hxh, Option.some_inj] at hx
      rw [← hx] at hp
      have hpe : e.prev = some p := hp
      obtain ⟨pe, hpel, hpw⟩ := h2 h e p he hpe
      by_cases hph : p = h
      · refine ⟨{ e with nChainTx := pct + e.nTx, seqId := s.seqCounter }, ?_, ?_⟩
        · rw [hlk, if_pos hph]
        · rw [← hx]
      · refine ⟨pe, ?_, ?_⟩
        · rw [hlk, if_neg hph]
          exact hpel
        · rw [← hx]
          exact hpw
    · rw [if_neg hxh] at hx
      obtain ⟨pe, hpel, hpw⟩ := h2 x ex p hx hp
      by_cases hph : p = h
      · have he2 := he
        rw [hph] at hpel
        rw [hpel] at he2
        have hpee := Option.some_inj.mp he2
        refine ⟨{ e with nChainTx := pct + e.nTx, seqId := s.seqCounter }, ?_, ?_⟩
        · rw [hlk, if_pos hph]
        · have hth : pe.chainWork ≤ ex.chainWork := hpw
          rw [hpee] at hth
          exact hth
      · refine ⟨pe, ?_, hpw⟩
        rw [hlk, if_neg hph]
        exact hpel
  · intro pc hpc
    have hpc' : pc ∈ s.unlinked := hpc
    obtain ⟨eu, heu, hud, huv, hun, hup⟩ := h3 pc hpc'
    by_cases hch : pc.2 = h
    · have he2 := he
      rw [hch] at heu
      rw [heu] at he2
      have heue := Option.some_inj.mp he2
      rw [heue] at hup
      refine ⟨{ e with nChainTx := pct + e.nTx, seqId := s.seqCounter }, ?_, hd, hv, hn, hup⟩
      rw [hlk, if_pos hch]
    · refine ⟨eu, ?_, hud, huv, hun, hup⟩
      rw [hlk, if_neg hch]
      exact heu
  · intro c hc
    have hc' : c ∈ s.candidates := hc
    obtain ⟨ec, hec, hev, hen, hw⟩ := h4 c hc'
    by_cases hch : c = h
    · have he2 := he
      rw [hch] at hec
      rw [hec] at he2
      have hece := Option.some_inj.mp he2
      refine ⟨{ e with nChainTx := pct + e.nTx, seqId := s.seqCounter }, ?_, hv, ?_, ?_⟩
      · rw [hlk, if_pos hch]
      · intro hc0
        have hc0' : pct + e.nTx = 0 := hc0
        exact hn (by omega)
      · intro t te ht hte
        have ht' : s.tipHash = some t := ht
        rw [hlk] at hte
        by_cases hth : t = h
        · rw [if_pos hth, Option.some_inj] at hte
          rw [← hte]
        · rw [if_neg hth] at hte
          have hth2 := hw t te ht' hte
          rw [hece] at hth2
          exact hth2
    · refine ⟨ec, ?_, hev, hen, ?_⟩
      · rw [hlk, if_neg hch]
        exact hec
      · intro t te ht hte
        have ht' : s.tipHash = some t := ht
        rw [hlk] at hte
        by_cases hth : t = h
        · rw [if_pos hth, Option.some_inj] at hte
          rw [← hte]
          refine hw t e ht' ?_
          rw [hth]
          exact he
        · rw [if_neg hth] at hte
          exact hw t te ht' hte
  · show 1 ≤ s.seqCounter + 1
    omega
  · intro x ex hx
    rw [hlk] at hx
    by_cases hxh : x = h
    · rw [if_pos hxh, Option.some_inj] at hx
      rw [← hx]
      refine ⟨?_, ?_, ?_⟩
      · show s.seqCounter < s.seqCounter + 1
        omega
      · show s.seqCounter ≠ 0 ↔ pct + e.nTx ≠ 0
        omega
      · intro hc0
        refine ⟨hd, hv, hn, ?_⟩
        rcases hpcl with hnone | ⟨p, pe, hp, hpl, hpn⟩
        · exact Or.inl hnone
        · by_cases hph : p = h
          · refine Or.inr ⟨p, { e with nChainTx := pct + e.nTx, seqId := s.seqCounter }, hp, ?_, ?_⟩
            · rw [hlk, if_pos hph]
            · intro hc1
              have hc1' : pct + e.nTx = 0 := hc1
              exact hn (by omega)
          · refine Or.inr ⟨p, pe, hp, ?_, hpn⟩
            rw [hlk, if_neg hph]
            exact hpl
    · rw [if_neg hxh] at hx
      obtain ⟨hlt, hiff, hcl⟩ := h52 x ex hx
      refine ⟨?_, hiff, ?_⟩
      · show ex.seqId < s.seqCounter + 1
        omega
      · intro hn2
        obtain ⟨hda, hvv, hnt, hrest⟩ := hcl hn2
        refine ⟨hda, hvv, hnt, ?_⟩
        rcases hrest with hnone | ⟨p, pe, hp, hpl, hpn⟩
        · exact Or.inl hnone
        · by_cases hph : p = h
          · refine Or.inr ⟨p, { e with nChainTx := pct + e.nTx, seqId := s.seqCounter }, hp, ?_, ?_⟩
            · rw [hlk, if_pos hph]
            · intro hc1
              have hc1' : pct + e.nTx = 0 := hc1
              exact hn (by omega)
          · refine Or.inr ⟨p, pe, hp, ?_, hpn⟩
            rw [hlk, if_neg hph]
            exact hpl
  · intro x1 e1 x2 e2 hx1 hx2 hne hs1
    rw [hlk] at hx1
    rw [hlk] at hx2
    by_cases hx1h : x1 = h
    · by_cases hx2h : x2 = h
      · exact absurd (hx1h.trans hx2h.symm) hne
      · rw [if_pos hx1h, Option.some_inj] at hx1
        rw [if_neg hx2h] at hx2
        rw [← hx1]
        obtain ⟨hlt2, _, _⟩ := h52 x2 e2 hx2
        show s.seqCounter ≠ e2.seqId
        omega
    · rw [if_neg hx1h] at hx1
      by_cases hx2h : x2 = h
      · rw [if_pos hx2h, Option.some_inj] at hx2
        rw [← hx2]
        obtain ⟨hlt1, _, _⟩ := h52 x1 e1 hx1
        show e1.seqId ≠ s.seqCounter
        omega
      · rw [if_neg hx2h] at hx2
        exact h53 x1 e1 x2 e2 hx1 hx2 hne hs1

/-- The invariant of the `ReceivedBlockTransactions` queue: every queued
block has data, `BLOCK_VALID_TRANSACTIONS`, a nonzero tx count, and a
predecessor (when any) whose cumulative count is already set. -/
def QueueInv (s : NodeState) (q : List Nat) : Prop :=
  ∀ x ∈ q, ∃ e, lookupBI s x = some e ∧ e.hasData = true ∧ e.validTx = true ∧
    e.nTx ≠ 0 ∧ (e.prev = none ∨ ∃ p pe, e.prev = some p ∧
      lookupBI s p = some pe ∧ pe.nChainTx ≠ 0)

theorem rbtPop_inv (s : NodeState) (h : Nat) (e : BIEntry) (pct : Nat)
    (rest : List Nat)
    (he : lookupBI s h = some e) (hd : e.hasData = true) (hv : e.validTx = true)
    (hn : e.nTx ≠ 0)
    (hpcl : e.prev = none ∨ ∃ p pe, e.prev = some p ∧ lookupBI s p = some pe ∧
      pe.nChainTx ≠ 0)
    (hinv : Inv s) (hq : QueueInv s rest) :
    let e2 : BIEntry := { e with nChainTx := pct + e.nTx, seqId := s.seqCounter }
    let s2 : NodeState := { s with index := updA s.index h (fun _ => e2), seqCounter := s.seqCounter + 1 }
    let s3 : NodeState := if tipAllows s2 e2 then { s2 with candidates := s2.candidates ++ [h] } else s2
    let s4 : NodeState := { s3 with unlinked := s3.unlinked.filter (fun q => !decide (q.1 = h)) }
    Inv s4 ∧ QueueInv s4 (rest ++ (s3.unlinked.filter (fun q => decide (q.1 = h))).map (fun q => q.2)) := by
  intro e2 s2 s3 s4
  have hS2 : Inv s2 := rbtUpdate_inv s h e pct he hd hv hn hpcl hinv
  have hlk : ∀ x, lookupBI s2 x = if x = h then some e2 else lookupBI s x := by
    intro x
    show lookupA (updA s.index h (fun _ => e2)) x = _
    rw [lookupA_updA]
    by_cases hx : x = h
    · rw [if_pos hx, if_pos hx, hx]
      have he' : lookupA s.index h = some e := he
      rw [he']
      rfl
    · rw [if_neg hx, if_neg hx]
      rfl
  have hS3 : Inv s3 := by
    show Inv (if tipAllows s2 e2 then { s2 with candidates := s2.candidates ++ [h] } else s2)
    by_cases hta : tipAllows s2 e2 = true
    · rw [if_pos hta]
      apply Inv_appendCands
      · intro c hc
        have hch : c = h := List.mem_singleton.mp hc
        refine ⟨e2, ?_, hv, ?_, ?_⟩
        · rw [hch, hlk, if_pos rfl]
        · intro h0
          have h0' : pct + e.nTx = 0 := h0
          exact hn (by omega)
        · exact tipAllows_work s2 e2 hta
      · exact hS2
    · rw [if_neg hta]
      exact hS2
  have hS4 : Inv s4 := by
    show Inv { s3 with unlinked := s3.unlinked.filter (fun q => !decide (q.1 = h)) }
    exact Inv_filterUnlinked s3 _ hS3
  have hlk4 : ∀ x, lookupBI s4 x = if x = h then some e2 else lookupBI s x := by
    intro x
    show lookupA s3.index x = _
    by_cases hta : tipAllows s2 e2 = true
    · have hs3 : s3 = { s2 with candidates := s2.candidates ++ [h] } := if_pos hta
      rw [hs3]
      exact hlk x
    · have hs3 : s3 = s2 := if_neg hta
      rw [hs3]
      exact hlk x
  have hul : s3.unlinked = s.unlinked := by
    by_cases hta : tipAllows s2 e2 = true
    · have hs3 : s3 = { s2 with candidates := s2.candidates ++ [h] } := if_pos hta
      rw [hs3]
    · have hs3 : s3 = s2 := if_neg hta
      rw [hs3]
  refine ⟨hS4, ?_⟩
  intro x hx
  rcases List.mem_append.mp hx with hx | hx
  · obtain ⟨ex, hex, hxd, hxv, hxn, hxp⟩ := hq x hx
    by_cases hxh : x = h
    · refine ⟨e2, ?_, hd, hv, hn, ?_⟩
      · rw [hlk4, if_pos hxh]
      · rcases hpcl with hnone | ⟨p, pe, hp, hpl, hpn⟩
        · exact Or.inl hnone
        · by_cases hph : p = h
          · refine Or.inr ⟨p, e2, hp, ?_, ?_⟩
            · rw [hlk4, if_pos hph]
            · intro h0
              have h0' : pct + e.nTx = 0 := h0
              exact hn (by omega)
          · refine Or.inr ⟨p, pe, hp, ?_, hpn⟩
            rw [hlk4, if_neg hph]
            exact hpl
    · refine ⟨ex, ?_, hxd, hxv, hxn, ?_⟩
      · rw [hlk4, if_neg hxh]
        exact hex
      · rcases hxp with hnone | ⟨p, pe, hp, hpl, hpn⟩
        · exact Or.inl hnone
        · by_cases hph : p = h
          · refine Or.inr ⟨p, e2, hp, ?_, ?_⟩
            · rw [hlk4, if_pos hph]
            · intro h0
              have h0' : pct + e.nTx = 0 := h0
              exact hn (by omega)
          · refine Or.inr ⟨p, pe, hp, ?_, hpn⟩
            rw [hlk4, if_neg hph]
            exact hpl
  · rw [List.mem_map] at hx
    obtain ⟨q0, hqmem, hq2⟩ := hx
    rw [List.mem_filter] at hqmem
    obtain ⟨hqu, hq1⟩ := hqmem
    rw [hul] at hqu
    have hq1' : q0.1 = h := of_decide_eq_true hq1
    obtain ⟨eu, heu, hud, huv, hun, hup⟩ := hinv.2.2.1 q0 hqu
    by_cases hxh : x = h
    · refine ⟨e2, ?_, hd, hv, hn, ?_⟩
      · rw [hlk4, if_pos hxh]
      · rcases hpcl with hnone | ⟨p, pe, hp, hpl, hpn⟩
        · exact Or.inl hnone
        · by_cases hph : p = h
          · refine Or.inr ⟨p, e2, hp, ?_, ?_⟩
            · rw [hlk4, if_pos hph]
            · intro h0
              have h0' : pct + e.nTx = 0 := h0
              exact hn (by omega)
          · refine Or.inr ⟨p, pe, hp, ?_, hpn⟩
            rw [hlk4, if_neg hph]
            exact hpl
    · rw [hq2] at heu
      refine ⟨eu, ?_, hud, huv, hun, ?_⟩
      · rw [hlk4, if_neg hxh]
        exact heu
      · refine Or.inr ⟨q0.1, e2, hup, ?_, ?_⟩
        · rw [hq1', hlk4, if_pos rfl]
        · intro h0
          have h0' : pct + e.nTx = 0 := h0
          exact hn (by omega)

theorem rbtStep_inv (f : Nat) : ∀ (s : NodeState) (q : List Nat),
    Inv s → QueueInv s q → Inv (rbtStep f s q) := by
  induction f with
  | zero => intro s q hinv _; exact hinv
  | succ f ih =>
    intro s q hinv hq
    cases q with
    | nil => exact hinv
    | cons h rest =>
      unfold rbtStep
      split
      · exact ih s rest hinv (fun x hx => hq x (List.mem_cons_of_mem h hx))
      · rename_i e he
        obtain ⟨e', he', hd, hv, hn, hpcl⟩ := hq h (List.mem_cons_self h rest)
        have hee : e' = e := by
          rw [he] at he'
          exact (Option.some_inj.mp he').symm
        rw [hee] at hd hv hn hpcl
        have hrest : QueueInv s rest := fun x hx => hq x (List.mem_cons_of_mem h hx)
        obtain ⟨hi4, hq4⟩ := rbtPop_inv s h e
          (match e.prev with
            | none => 0
            | some p =>
              match lookupBI s p with
              | none => 0
              | some pe => pe.nChainTx) rest he hd hv hn hpcl hinv hrest
        exact ih _ _ hi4 hq4

theorem Inv_appendUnlinked (s : NodeState) (nw : List (Nat × Nat))
    (hnew : ∀ pc ∈ nw, ∃ e, lookupBI s pc.2 = some e ∧ e.hasData = true ∧
      e.validTx = true ∧ e.nTx ≠ 0 ∧ e.prev = some pc.1)
    (hinv : Inv s) : Inv { s with unlinked := s.unlinked ++ nw } := by
  obtain ⟨h1, h2, h3, h4, h5⟩ := hinv
  refine ⟨h1, h2, ?_, h4, h5⟩
  intro pc hpc
  rcases List.mem_append.mp hpc with hpc | hpc
  · exact h3 pc hpc
  · exact hnew pc hpc

theorem rdUpdate_inv (s : NodeState) (h : Nat) (e : BIEntry) (n : Nat)
    (he : lookupBI s h = some e) (hnd : e.hasData = false) (hn : ¬n = 0)
    (hinv : Inv s) :
    Inv { s with index := updA s.index h (fun _ => { e with nTx := n, nChainTx := 0, hasData := true, validTx := true }) } := by
  have h1 := hinv.1
  have h2 := hinv.2.1
  have h3 := hinv.2.2.1
  have h4 := hinv.2.2.2.1
  have h51 := hinv.2.2.2.2.1
  have h52 := hinv.2.2.2.2.2.1
  have h53 := hinv.2.2.2.2.2.2
  obtain ⟨hlt0, hiff0, hcl0⟩ := h52 h e he
  have hnc : e.nChainTx = 0 := by
    by_contra hc
    have hda := (hcl0 hc).1
    rw [hnd] at hda
    exact absurd hda (by simp)
  have hsq : e.seqId = 0 := by
    by_contra hc
    exact hiff0.mp hc hnc
  have hlk : ∀ x, lookupBI { s with index := updA s.index h (fun _ => { e with nTx := n, nChainTx := 0, hasData := true, validTx := true }) } x = if x = h then some { e with nTx := n, nChainTx := 0, hasData := true, validTx := true } else lookupBI s x := by
    intro x
    show lookupA (updA s.index h (fun _ => { e with nTx := n, nChainTx := 0, hasData := true, validTx := true })) x = _
    rw [lookupA_updA]
    by_cases hx : x = h
    · rw [if_pos hx, if_pos hx, hx]
      have he' : lookupA s.index h = some e := he
      rw [he']
      rfl
    · rw [if_neg hx, if_neg hx]
      rfl
  refine ⟨?_, ?_, ?_, ?_, ?_, ?_, ?_⟩
  · intro t ht
    have ht' : s.tipHash = some t := ht
    obtain ⟨te, hte⟩ := h1 t ht'
    by_cases hth : t = h
    · refine ⟨{ e with nTx := n, nChainTx := 0, hasData := true, validTx := true }, ?_⟩
      rw [hlk, if_pos hth]
    · refine ⟨te, ?_⟩
      rw [hlk, if_neg hth]
      exact hte
  · intro x ex p hx hp
    rw [hlk] at hx
    by_cases hxh : x = h
    · rw [if_pos hxh, Option.some_inj] at hx
      rw [← hx] at hp
      have hpe : e.prev = some p := hp
      obtain ⟨pe, hpel, hpw⟩ := h2 h e p he hpe
      by_cases hph : p = h
      · refine ⟨{ e with nTx := n, nChainTx := 0, hasData := true, validTx := true }, ?_, ?_⟩
        · rw [hlk, if_pos hph]
        · rw [← hx]
      · refine ⟨pe, ?_, ?_⟩
        · rw [hlk, if_neg hph]
          exact hpel
        · rw [← hx]
          exact hpw
    · rw [if_neg hxh] at hx
      obtain ⟨pe, hpel, hpw⟩ := h2 x ex p hx hp
      by_cases hph : p = h
      · have he2 := he
        rw [hph] at hpel
        rw [hpel] at he2
        have hpee := Option.some_inj.mp he2
        refine ⟨{ e with nTx := n, nChainTx := 0, hasData := true, validTx := true }, ?_, ?_⟩
        · rw [hlk, if_pos hph]
        · have hth : pe.chainWork ≤ ex.chainWork := hpw
          rw [hpee] at hth
          exact hth
      · refine ⟨pe, ?_, hpw⟩
        rw [hlk, if_neg hph]
        exact hpel
  · intro pc hpc
    have hpc' : pc ∈ s.unlinked := hpc
    obtain ⟨eu, heu, hud, huv, hun, hup⟩ := h3 pc hpc'
    by_cases hch : pc.2 = h
    · have he2 := he
      rw [hch] at heu
      rw [heu] at he2
      have heue := Option.some_inj.mp he2
      rw [heue] at hup
      refine ⟨{ e with nTx := n, nChainTx := 0, hasData := true, validTx := true }, ?_, rfl, rfl, hn, hup⟩
      rw [hlk, if_pos hch]
    · refine ⟨eu, ?_, hud, huv, hun, hup⟩
      rw [hlk, if_neg hch]
      exact heu
  · intro c hc
    have hc' : c ∈ s.candidates := hc
    obtain ⟨ec, hec, hev, hen, hw⟩ := h4 c hc'
    by_cases hch : c = h
    · have he2 := he
      rw [hch] at hec
      rw [hec] at he2
      have hece := Option.some_inj.mp he2
      rw [hece] at hen
      exact absurd hnc hen
    · refine ⟨ec, ?_, hev, hen, ?_⟩
      · rw [hlk, if_neg hch]
        exact hec
      · intro t te ht hte
        have ht' : s.tipHash = some t := ht
        rw [hlk] at hte
        by_cases hth : t = h
        · rw [if_pos hth, Option.some_inj] at hte
          rw [← hte]
          refine hw t e ht' ?_
          rw [hth]
          exact he
        · rw [if_neg hth] at hte
          exact hw t te ht' hte
  · exact h51
  · intro x ex hx
    rw [hlk] at hx
    by_cases hxh : x = h
    · rw [if_pos hxh, Option.some_inj] at hx
      rw [← hx]
      refine ⟨?_, ?_, ?_⟩
      · show e.seqId < s.seqCounter
        exact hlt0
      · show e.seqId ≠ 0 ↔ (0 : Nat) ≠ 0
        rw [hsq]
      · intro hc0
        exact absurd rfl hc0
    · rw [if_neg hxh] at hx
      obtain ⟨hlt, hiff, hcl⟩ := h52 x ex hx
      refine ⟨hlt, hiff, ?_⟩
      intro hn2
      obtain ⟨hda, hvv, hnt, hrest⟩ := hcl hn2
      refine ⟨hda, hvv, hnt, ?_⟩
      rcases hrest with hnone | ⟨p, pe, hp, hpl, hpn⟩
      · exact Or.inl hnone
      · by_cases hph : p = h
        · have he2 := he
          rw [hph] at hpl
          rw [hpl] at he2
          have hpee := Option.some_inj.mp he2
          rw [← hpee] at hnc
          exact absurd hnc hpn
        · refine Or.inr ⟨p, pe, hp, ?_, hpn⟩
          rw [hlk, if_neg hph]
          exact hpl
  · intro x1 e1 x2 e2 hx1 hx2 hne hs1
    rw [hlk] at hx1
    rw [hlk] at hx2
    by_cases hx1h : x1 = h
    · by_cases hx2h : x2 = h
      · exact absurd (hx1h.trans hx2h.symm) hne
      · rw [if_pos hx1h, Option.some_inj] at hx1
        rw [← hx1] at hs1
        have hs1' : e.seqId ≠ 0 := hs1
        rw [hsq] at hs1'
        exact absurd rfl hs1'
    · rw [if_neg hx1h] at hx1
      by_cases hx2h : x2 = h
      · rw [if_pos hx2h, Option.some_inj] at hx2
        rw [← hx2]
        have hgoal : e1.seqId ≠ e.seqId := by
          rw [hsq]
          exact hs1
        exact hgoal
      · rw [if_neg hx2h] at hx2
        exact h53 x1 e1 x2 e2 hx1 hx2 hne hs1

theorem receiveDataOp_inv (s : NodeState) (h n : Nat) (hinv : Inv s) :
    Inv (receiveDataOp s h n) := by
  unfold receiveDataOp
  split
  · exact hinv
  · rename_i hn0
    split
    · exact hinv
    · rename_i e he
      split
      · exact hinv
      · rename_i hnd
        have hnd' : e.hasData = false := by
          cases hx : e.hasData
          · rfl
          · exact absurd hx hnd
        have hS1 : Inv { s with index := updA s.index h (fun _ => { e with nTx := n, nChainTx := 0, hasData := true, validTx := true }) } :=
          rdUpdate_inv s h e n he hnd' hn0 hinv
        have hlk : ∀ x, lookupBI { s with index := updA s.index h (fun _ => { e with nTx := n, nChainTx := 0, hasData := true, validTx := true }) } x = if x = h then some { e with nTx := n, nChainTx := 0, hasData := true, validTx := true } else lookupBI s x := by
          intro x
          show lookupA (updA s.index h (fun _ => { e with nTx := n, nChainTx := 0, hasData := true, validTx := true })) x = _
          rw [lookupA_updA]
          by_cases hx : x = h
          · rw [if_pos hx, if_pos hx, hx]
            have he' : lookupA s.index h = some e := he
            rw [he']
            rfl
          · rw [if_neg hx, if_neg hx]
            rfl
        dsimp only
        split
        · rename_i hpk
          apply rbtStep_inv
          · exact hS1
          · intro x hx
            have hxh : x = h := List.mem_singleton.mp hx
            refine ⟨{ e with nTx := n, nChainTx := 0, hasData := true, validTx := true }, ?_, rfl, rfl, hn0, ?_⟩
            · rw [hxh, hlk, if_pos rfl]
            · cases hp : e.prev with
              | none => exact Or.inl rfl
              | some p =>
                simp only [hp] at hpk
                rw [← hp] at hpk
                cases hlp : lookupBI { s with index := updA s.index h (fun _ => { e with nTx := n, nChainTx := 0, hasData := true, validTx := true }) } p with
                | none => simp only [hlp, Bool.false_eq_true] at hpk
                | some pe =>
                  simp only [hlp] at hpk
                  rw [hp] at hlp
                  exact Or.inr ⟨p, pe, rfl, hlp, of_decide_eq_true hpk⟩
        · rename_i hpk
          split
          · exact hS1
          · rename_i p hp
            refine Inv_appendUnlinked { s with index := updA s.index h (fun _ => { e with nTx := n, nChainTx := 0, hasData := true, validTx := true }) } [(p, h)] ?_ hS1
            intro pc hpc
            have hpch : pc = (p, h) := List.mem_singleton.mp hpc
            refine ⟨{ e with nTx := n, nChainTx := 0, hasData := true, validTx := true }, ?_, rfl, rfl, hn0, ?_⟩
            · rw [hpch, hlk, if_pos rfl]
            · rw [hpch]
              exact hp

theorem stepOp_inv (s : NodeState) (op : NodeOp) (hinv : Inv s) :
    Inv (stepOp s op) := by
  cases op with
  | addHeader h p w => exact addHeaderOp_inv s h p w hinv
  | receiveData h n => exact receiveDataOp_inv s h n hinv
  | pruneCands => exact pruneCandidatesOp_inv s hinv
  | lazyPrune e m => exact lazyPruneOp_inv s e m hinv
  | advanceTip h => exact advanceTipOp_inv s h hinv
  | disconnectTip => exact disconnectTipOp_inv s hinv
  | invalidateBlock h => exact invalidateBlockOp_inv s h hinv

theorem runOps_inv (ops : List NodeOp) : ∀ s : NodeState, Inv s →
    Inv (runOps s ops) := by
  induction ops with
  | nil => intro s h; exact h
  | cons op rest ih =>
    intro s h
    exact ih (stepOp s op) (stepOp_inv s op h)

theorem inv_initState (g gwork : Nat) : Inv (initState g gwork) := by
  have hlkI : ∀ x, lookupBI (initState g gwork) x =
      if g = x then some ⟨none, 0, gwork, 1, 1, 1, true, true, false, false⟩
      else none := fun x => rfl
  refine ⟨?_, ?_, ?_, ?_, ?_, ?_, ?_⟩
  · intro t ht
    have htg : g = t := Option.some_inj.mp ht
    refine ⟨⟨none, 0, gwork, 1, 1, 1, true, true, false, false⟩, ?_⟩
    rw [hlkI, if_pos htg]
  · intro x e p hx hp
    rw [hlkI] at hx
    by_cases hgx : g = x
    · rw [if_pos hgx, Option.some_inj] at hx
      rw [← hx] at hp
      exact absurd hp (by simp)
    · rw [if_neg hgx] at hx
      exact absurd hx (by simp)
  · intro pc hpc
    exact absurd hpc (List.not_mem_nil pc)
  · intro c hc
    have hcg : c = g := List.mem_singleton.mp hc
    refine ⟨⟨none, 0, gwork, 1, 1, 1, true, true, false, false⟩, ?_, rfl, ?_, ?_⟩
    · rw [hlkI, if_pos hcg.symm]
    · exact Nat.one_ne_zero
    · intro t te ht hte
      have hgt : g = t := Option.some_inj.mp ht
      rw [hlkI, if_pos hgt, Option.some_inj] at hte
      rw [← hte]
  · show (1 : Nat) ≤ 2
    omega
  · intro x e hx
    rw [hlkI] at hx
    by_cases hgx : g = x
    · rw [if_pos hgx, Option.some_inj] at hx
      rw [← hx]
      refine ⟨?_, ?_, ?_⟩
      · show (1 : Nat) < 2
        omega
      · show (1 : Nat) ≠ 0 ↔ (1 : Nat) ≠ 0
        exact Iff.rfl
      · intro _
        exact ⟨rfl, rfl, Nat.one_ne_zero, Or.inl rfl⟩
    · rw [if_neg hgx] at hx
      exact absurd hx (by simp)
  · intro x1 e1 x2 e2 hx1 hx2 hne hs1
    rw [hlkI] at hx1
    rw [hlkI] at hx2
    by_cases hg1 : g = x1
    · by_cases hg2 : g = x2
      · exact absurd (hg1.symm.trans hg2) hne
      · rw [if_neg hg2] at hx2
        exact absurd hx2 (by simp)
    · rw [if_neg hg1] at hx1
      exact absurd hx1 (by simp)

/-- Does the chain of predecessors above `h` contain a block marked
`BLOCK_FAILED_VALID`? (Fueled ancestor walk.) -/
def hasFailedAncestor (s : NodeState) : Nat → Nat → Bool
  | 0, _ => false
  | f + 1, h =>
    match lookupBI s h with
    | none => false
    | some e =>
      match e.prev with
      | none => false
      | some p =>
        match lookupBI s p with
        | none => false
        | some pe => pe.failedValid || hasFailedAncestor s f p

/-- The operation sequence of the refutation: connect block 2 on genesis 1,
build block 3 on top of 2 (3 enters the candidate set), then invalidate 2. -/
def c3Ops : List NodeOp :=
  [NodeOp.addHeader 2 (some 1) 1, NodeOp.receiveData 2 1, NodeOp.advanceTip 2,
   NodeOp.addHeader 3 (some 2) 1, NodeOp.receiveData 3 1,
   NodeOp.invalidateBlock 2]

/-- The state reached by `c3Ops` from the genesis state. -/
def c3Final : NodeState := runOps (initState 1 1) c3Ops

/-- C3 counterexample: after `InvalidateBlock(2)`, block 3 — a child of the
invalidated block 2 — is (re-)inserted into `setBlockIndexCandidates` by the
re-add loop of `InvalidateBlock` (validation.cpp lines 4085-4091), although
its ancestor 2 is marked `BLOCK_FAILED_VALID`: the no-failed-ancestor part
of the claimed invariant fails at this reachable state. -/
theorem C3_counterexample :
    (3 ∈ c3Final.candidates) ∧
      hasFailedAncestor c3Final (c3Final.index.length + 1) 3 = true := by
  decide

/-- C3 (corrected): at every observable state — any operation sequence run
from a state satisfying the maintained invariant, such as the genesis
state — every entry of `setBlockIndexCandidates` has
`BLOCK_VALID_TRANSACTIONS`, `nChainTx != 0` (all-ancestor data) and
cumulative chain work at least the active tip's. The claim's
no-failed-ancestor part is not maintained (see `C3_counterexample`):
candidates with failed ancestors are removed only lazily by
`FindMostWorkChain`. -/
theorem C3_candidate_soundness (s0 : NodeState) (ops : List NodeOp)
    (hinv : Inv s0) :
    ∀ c ∈ (runOps s0 ops).candidates, ∃ e,
      lookupBI (runOps s0 ops) c = some e ∧ e.validTx = true ∧
      e.nChainTx ≠ 0 ∧
      ∀ t te, (runOps s0 ops).tipHash = some t →
        lookupBI (runOps s0 ops) t = some te → te.chainWork ≤ e.chainWork :=
  (runOps_inv ops s0 hinv).2.2.2.1

theorem C3_candidate_soundness_witness :
    Inv (initState 1 1) ∧
    ∀ c ∈ (runOps (initState 1 1) c3Ops).candidates, ∃ e,
      lookupBI (runOps (initState 1 1) c3Ops) c = some e ∧ e.validTx = true ∧
      e.nChainTx ≠ 0 ∧
      ∀ t te, (runOps (initState 1 1) c3Ops).tipHash = some t →
        lookupBI (runOps (initState 1 1) c3Ops) t = some te →
          te.chainWork ≤ e.chainWork :=
  ⟨inv_initState 1 1, C3_candidate_soundness (initState 1 1) c3Ops (inv_initState 1 1)⟩

/-- C10: a block-index entry created from a header alone (`AddToBlockIndex`)
carries sequence id 0, no data and `nChainTx = 0`; in every observable state
reached from an invariant-satisfying start, an entry's sequence id is
positive exactly when its full data and every ancestor's data have been
received (`nChainTx != 0`, which requires own data, validity and the
predecessor's nonzero cumulative count), sequence ids stay below the
strictly increasing counter and positive ids are pairwise distinct, and
every candidate-set entry has a positive sequence id. -/
theorem C10_sequence_id_discipline (s0 : NodeState) (ops : List NodeOp)
    (hinv : Inv s0) :
    (∀ (s : NodeState) (h : Nat) (p : Option Nat) (w : Nat) (e : BIEntry),
      lookupBI s h = none → lookupBI (addHeaderOp s h p w) h = some e →
        e.seqId = 0 ∧ e.nChainTx = 0 ∧ e.hasData = false) ∧
    (∀ h e, lookupBI (runOps s0 ops) h = some e →
      (e.seqId ≠ 0 ↔ e.nChainTx ≠ 0) ∧
      e.seqId < (runOps s0 ops).seqCounter ∧
      (e.nChainTx ≠ 0 → e.hasData = true ∧ e.validTx = true ∧
        (e.prev = none ∨ ∃ p pe, e.prev = some p ∧
          lookupBI (runOps s0 ops) p = some pe ∧ pe.nChainTx ≠ 0))) ∧
    (∀ h1 e1 h2 e2, lookupBI (runOps s0 ops) h1 = some e1 →
      lookupBI (runOps s0 ops) h2 = some e2 → h1 ≠ h2 → e1.seqId ≠ 0 →
        e1.seqId ≠ e2.seqId) ∧
    (∀ c ∈ (runOps s0 ops).candidates, ∃ e,
      lookupBI (runOps s0 ops) c = some e ∧ e.seqId ≠ 0) := by
  have hinv2 := runOps_inv ops s0 hinv
  have hseq := hinv2.2.2.2.2
  have hcand := hinv2.2.2.2.1
  refine ⟨?_, ?_, ?_, ?_⟩
  · intro s h p w e hnone hlook
    have hfresh : lookupA s.index h = none := hnone
    unfold addHeaderOp at hlook
    rw [hnone] at hlook
    simp only [Option.isSome_none, Bool.false_eq_true, if_false] at hlook
    cases p with
    | none =>
      have hlook2 : lookupA (s.index ++
          [(h, (⟨none, 0, w, 0, 0, 0, false, false, false, false⟩ : BIEntry))]) h
          = some e := hlook
      rw [lookupA_append_fresh s.index h _ hfresh h, if_pos rfl,
        Option.some_inj] at hlook2
      rw [← hlook2]
      exact ⟨rfl, rfl, rfl⟩
    | some p0 =>
      have hlook2 : lookupBI (match lookupBI s p0 with
          | none => s
          | some pe => { s with index := s.index ++
              [(h, (⟨some p0, pe.height + 1, pe.chainWork + w, 0, 0, 0,
                false, false, false, false⟩ : BIEntry))] }) h = some e := hlook
      cases hp0 : lookupBI s p0 with
      | none =>
        simp only [hp0] at hlook2
        rw [hnone] at hlook2
        exact absurd hlook2 (by simp)
      | some pe =>
        simp only [hp0] at hlook2
        have hlook3 : lookupA (s.index ++
            [(h, (⟨some p0, pe.height + 1, pe.chainWork + w, 0, 0, 0,
              false, false, false, false⟩ : BIEntry))]) h = some e := hlook2
        rw [lookupA_append_fresh s.index h _ hfresh h, if_pos rfl,
          Option.some_inj] at hlook3
        rw [← hlook3]
        exact ⟨rfl, rfl, rfl⟩
  · intro h e hl
    obtain ⟨hlt, hiff, hcl⟩ := hseq.2.1 h e hl
    refine ⟨hiff, hlt, ?_⟩
    intro hn
    obtain ⟨hda, hvv, _, hrest⟩ := hcl hn
    exact ⟨hda, hvv, hrest⟩
  · exact hseq.2.2
  · intro c hc
    obtain ⟨e, hl, _, hn, _⟩ := hcand c hc
    obtain ⟨_, hiff, _⟩ := hseq.2.1 c e hl
    exact ⟨e, hl, hiff.mpr hn⟩

theorem C10_sequence_id_discipline_witness :
    Inv (initState 1 1) ∧
    ∀ h e, lookupBI (runOps (initState 1 1) c3Ops) h = some e →
      (e.seqId ≠ 0 ↔ e.nChainTx ≠ 0) :=
  ⟨inv_initState 1 1,
    fun h e hl =>
      ((C10_sequence_id_discipline (initState 1 1) c3Ops
        (inv_initState 1 1)).2.1 h e hl).1⟩

/-- C9: `CheckProofOfWork` returns true if and only if the compact-encoded
`nBits` decodes to a target that is non-negative, non-zero, non-overflowing
and at most `powLimit`, and the hash (as a 256-bit unsigned integer) is at
most that target. -/
theorem C9_check_proof_of_work_iff (hash nBits powLimit : Nat) :
    CheckProofOfWork hash nBits powLimit = true ↔
      ((setCompact nBits).2.1 = false ∧ (setCompact nBits).1 ≠ 0 ∧
       (setCompact nBits).2.2 = false ∧ (setCompact nBits).1 ≤ powLimit ∧
       hash ≤ (setCompact nBits).1) := by
  unfold CheckProofOfWork
  rcases setCompact nBits with ⟨t, neg, over⟩
  cases neg <;> cases over <;> simp <;> omega

end Paladeum
